import Mathlib

/- Verification development for the citation manager (src/app.py).

   The repository converts lists of publication identifiers into formatted
   bibliography entries.  We shallowly embed the pure computational core:
   the given-name formatter (process_given_name), the per-source author-name
   parsing inside fetch_paper_data_csl, the citation post-processor
   (process_csl: et-al handling, numbering rewrites, punctuation cleanup),
   and the batch orchestration in generate (entry construction, alphabetical
   ordering, numbering, per-entry error strings).

   Strings are modelled as List Char (with String wrappers where convenient);
   Python's regular-expression passes are modelled as explicit left-to-right
   scanners with fuel (fuel = length of the input suffices, each match
   consumes at least one character).  Character classes are modelled over
   ASCII, which covers every character the embedded patterns mention.
   External collaborators (network fetches, the CSL renderer, style files,
   debug traces) are abstracted as parameters, exactly at the interface the
   spec gives them. -/

namespace CM

/-! ### Character classes (ASCII model of Python's str and re classes) -/

def isDigitC (c : Char) : Bool := decide (48 ≤ c.toNat ∧ c.toNat ≤ 57)

def isUpperC (c : Char) : Bool := decide (65 ≤ c.toNat ∧ c.toNat ≤ 90)

def isLowerC (c : Char) : Bool := decide (97 ≤ c.toNat ∧ c.toNat ≤ 122)

def isLetterC (c : Char) : Bool := isUpperC c || isLowerC c

/-- Python `\s` / `str.split()` whitespace (ASCII part): space, tab, newline,
    carriage return, vertical tab, form feed. -/
def isSpaceC (c : Char) : Bool :=
  decide (c = ' ' ∨ c = Char.ofNat 9 ∨ c = Char.ofNat 10 ∨ c = Char.ofNat 13 ∨
          c = Char.ofNat 11 ∨ c = Char.ofNat 12)

/-- Python `\w` (ASCII part): letters, digits, underscore. -/
def isWordC (c : Char) : Bool := isLetterC c || isDigitC c || decide (c = '_')

/-- ASCII lower-casing of one character (model of str.lower / re.IGNORECASE). -/
def lc (c : Char) : Char := if isUpperC c then Char.ofNat (c.toNat + 32) else c

/-- Lower-case a character list. -/
def lcL (l : List Char) : List Char := l.map lc

/-! ### Python string primitives used by the source -/

/-- `s.split(sep)` for a one-character separator: keeps empty fields,
    `''.split(sep) = ['']`. -/
def splitChAux (sep : Char) : List Char → List Char → List (List Char)
  | acc, [] => [acc.reverse]
  | acc, c :: cs =>
    if c = sep then acc.reverse :: splitChAux sep [] cs
    else splitChAux sep (c :: acc) cs

def splitCh (sep : Char) (l : List Char) : List (List Char) := splitChAux sep [] l

/-- `s.split()` (no argument): split on whitespace runs, dropping empties. -/
def splitWSAux : List Char → List Char → List (List Char)
  | acc, [] => if acc = [] then [] else [acc.reverse]
  | acc, c :: cs =>
    if isSpaceC c then
      (if acc = [] then splitWSAux [] cs else acc.reverse :: splitWSAux [] cs)
    else splitWSAux (c :: acc) cs

def splitWS (l : List Char) : List (List Char) := splitWSAux [] l

/-- `' '.join(parts)`. -/
def joinSp : List (List Char) → List Char
  | [] => []
  | [x] => x
  | x :: y :: ys => x ++ ' ' :: joinSp (y :: ys)

/-- `s.strip()`. -/
def stripL (l : List Char) : List Char :=
  ((l.dropWhile isSpaceC).reverse.dropWhile isSpaceC).reverse

/-- `s.rstrip()`. -/
def rstripL (l : List Char) : List Char :=
  (l.reverse.dropWhile isSpaceC).reverse

/-! ### Substring containment and occurrence counting -/

/-- Number of start positions in `l` at which `p` occurs as a contiguous
    substring (Python `s.count`-like, but counting every start position). -/
def countOcc (p : List Char) : List Char → Nat
  | [] => if p = [] then 1 else 0
  | c :: cs => (if p.isPrefixOf (c :: cs) then 1 else 0) + countOcc p cs

/-- Python `p in s` (substring containment). -/
def containsL (p : List Char) : List Char → Bool
  | [] => p.isEmpty
  | c :: cs => p.isPrefixOf (c :: cs) || containsL p cs

/-! ### The Given-Name Formatter: process_given_name (app.py lines 63-109) -/

/-- `'. '.join(list(part)) + '.'` : initials of an all-uppercase token,
    e.g. "CS" becomes "C. S.". -/
def initialsOf : List Char → List Char
  | [] => ['.']
  | [c] => [c, '.']
  | c :: d :: rest => c :: '.' :: ' ' :: initialsOf (d :: rest)

/-- The token loop of process_given_name.  `acc` is the reversed list of
    emitted parts, `commaIns` the comma_inserted flag.  A token starting with
    a lowercase letter is kept; an all-uppercase alphabetic token is turned
    into initials, appending a comma to the previously emitted part the first
    time (if one exists); any other token is kept verbatim. -/
def pgnAux : List (List Char) → Bool → List (List Char) → List (List Char)
  | acc, _, [] => acc.reverse
  | acc, commaIns, p :: ps =>
    if p = [] then pgnAux acc commaIns ps
    else if isLowerC (p.headD ' ') then pgnAux (p :: acc) commaIns ps
    else if p.all isUpperC then
      match commaIns, acc with
      | false, a :: rest => pgnAux (initialsOf p :: (a ++ [',']) :: rest) true ps
      | _, _ => pgnAux (initialsOf p :: acc) commaIns ps
    else pgnAux (p :: acc) commaIns ps

def processGivenNameL (l : List Char) : List Char := joinSp (pgnAux [] false (splitWS l))

/-- process_given_name.  (The `if not given_name: return ""` guard coincides
    with the general path: splitting the empty string yields no tokens.) -/
def process_given_name (s : String) : String := String.mk (processGivenNameL s.data)

/-! ### Data model -/

/-- A parsed author record (PersonName): family, given,
    optional non-dropping particle. -/
structure Author where
  family : String
  given : String
  particle : Option String
deriving DecidableEq, Repr

/-- The canonical bibliographic record (CSL-JSON shaped) as far as the
    embedded code reads it: process_csl and generate use only `id` and
    `author`; title/container/volume/issue/page/issued are copied verbatim
    for the external renderer and never read again, so they are omitted. -/
structure CslData where
  id : String
  author : List Author
deriving DecidableEq, Repr

/-! ### The Name Parser inside fetch_paper_data_csl (app.py lines 112-301) -/

/-- Python `s[0]`: first character, raising IndexError on the empty string. -/
def pyFirst : List Char → Except String Char
  | [] => .error "string index out of range"
  | c :: _ => .ok c

instance {e a : Type} [DecidableEq e] [DecidableEq a] : DecidableEq (Except e a) := fun x y =>
  match x, y with
  | .ok u, .ok v => if h : u = v then isTrue (by rw [h]) else isFalse (by simp [h])
  | .error u, .error v => if h : u = v then isTrue (by rw [h]) else isFalse (by simp [h])
  | .ok _, .error _ => isFalse (by simp)
  | .error _, .ok _ => isFalse (by simp)

/-- pubmed branch, one author string (lines 127-179): split on single
    spaces; left-to-right scan for the first token whose first character is
    uppercase; tokens before it form the non-dropping particle; tokens after
    it form the given name; a for-else fallback takes the first token as
    family when no uppercase-starting token exists; a single-token name
    yields family only. -/
def pubmedParseOne (name : String) : List Author :=
  let parts := splitCh ' ' name.data
  if 2 ≤ parts.length then
    match parts.findIdx? (fun p => !p.isEmpty && isUpperC (p.headD ' ')) with
    | some i =>
      let family := String.mk (parts.getD i [])
      let given := String.mk (processGivenNameL (joinSp (parts.drop (i + 1))))
      if 0 < i then [⟨family, given, some (String.mk (joinSp (parts.take i)))⟩]
      else [⟨family, given, none⟩]
    | none =>
      [⟨String.mk (parts.headD []),
        String.mk (processGivenNameL (joinSp (parts.drop 1))), none⟩]
  else if parts.length = 1 then [⟨String.mk (parts.headD []), "", none⟩]
  else []

/-- The pubmed author loop (lines 124-179): falsy (empty) names are skipped
    before splitting. -/
def pubmedAuthors (names : List String) : List Author :=
  names.flatMap (fun n => if n = "" then [] else pubmedParseOne n)

/-- The right-to-left family scan shared by the arxiv and biorxiv branches
    (lines 206-210 and 258-260): starting from `len(parts) - 1`, move left
    while the preceding token's first character is lowercase.  Evaluating
    `parts[family_idx - 1][0]` raises IndexError when that token is empty. -/
def famScan (parts : List (List Char)) : Nat → Except String Nat
  | 0 => .ok 0
  | i + 1 => do
    let c ← pyFirst (parts.getD i [])
    if isLowerC c then famScan parts i else pure (i + 1)

/-- The arxiv/biorxiv per-author record build (lines 200-235 = 256-282):
    family span from the right-to-left scan, given name from the remaining
    left tokens, particle when the family span starts with a lowercase
    token. -/
def famBuild (parts : List (List Char)) : Except String (List Author) :=
  if 2 ≤ parts.length then do
    let fidx ← famScan parts (parts.length - 1)
    let famParts := parts.drop fidx
    let given := String.mk (processGivenNameL (joinSp (parts.take fidx)))
    if 1 < famParts.length then do
      let c ← pyFirst (famParts.headD [])
      if isLowerC c then
        pure [⟨String.mk (famParts.getLastD []), given,
              some (String.mk (joinSp famParts.dropLast))⟩]
      else pure [⟨String.mk (joinSp famParts), given, none⟩]
    else pure [⟨String.mk (joinSp famParts), given, none⟩]
  else if parts.length = 1 then pure [⟨String.mk (parts.headD []), "", none⟩]
  else pure []

/-- arxiv branch, one author name (lines 199-235). -/
def arxivParseOne (name : String) : Except String (List Author) :=
  famBuild (splitCh ' ' name.data)

/-- The arxiv author loop; an exception aborts the whole fetch (the
    enclosing try of fetch_paper_data_csl). -/
def arxivAuthors : List String → Except String (List Author)
  | [] => pure []
  | n :: ns => do
    let a ← arxivParseOne n
    let rest ← arxivAuthors ns
    pure (a ++ rest)

/-- biorxiv branch, one semicolon-delimited segment (lines 254-282):
    the segment is stripped before splitting on spaces. -/
def biorxivParseOne (seg : List Char) : Except String (List Author) :=
  famBuild (splitCh ' ' (stripL seg))

/-- The biorxiv author loop over `item['authors'].split(';')`. -/
def biorxivAuthors (field : String) : Except String (List Author) :=
  go (splitCh ';' field.data)
where
  go : List (List Char) → Except String (List Author)
    | [] => pure []
    | s :: ss => do
      let a ← biorxivParseOne s
      let rest ← go ss
      pure (a ++ rest)

/-- fetch_paper_data_csl for arxiv, abstracted over the metadata fetch:
    given the author-name strings the external client returned, build the
    record; the surrounding try/except converts any exception to None
    (lines 299-301). -/
def fetchArxivData (paperId : String) (names : List String) : Option CslData :=
  match arxivAuthors names with
  | .ok authors => some ⟨paperId, authors⟩
  | .error _ => none

/-! ### Batch orchestration: generate (app.py lines 600-682), entry
    construction and ordering -/

inductive SourceTag | pubmed | biorxiv | arxiv
deriving DecidableEq, Repr

/-- ID classification (lines 614-621): all digits means pubmed, containing
    "10.1101" means biorxiv, containing a period and shorter than 15
    characters means arxiv, otherwise pubmed. -/
def classifySource (line : String) : SourceTag :=
  if !line.data.isEmpty && line.data.all isDigitC then .pubmed
  else if containsL ('1' :: '0' :: '.' :: '1' :: '1' :: '0' :: '1' :: []) line.data then .biorxiv
  else if containsL ['.'] line.data && decide (line.length < 15) then .arxiv
  else .pubmed

/-- One batch-processing unit (lines 631-643).  The code stores an explicit
    error flag that is set exactly when csl_data is None, so we derive it. -/
structure CitEntry where
  csl_data : Option CslData
  sort_key : String
  original_id : String
deriving DecidableEq, Repr

def CitEntry.error (e : CitEntry) : Bool := e.csl_data.isNone

/-- Sort key (lines 626-629): lowercase family name of the first author,
    empty when the record has no authors. -/
def sortKeyOf (d : CslData) : String :=
  match d.author with
  | [] => ""
  | a :: _ => String.mk (lcL a.family.data)

/-- Lines 609-643: per input line strip, skip blanks, classify, fetch
    (external; abstracted as a function), and build the CitEntry. -/
def buildEntries (fetch : SourceTag → String → Option CslData) (lines : List String) :
    List CitEntry :=
  ((lines.map (fun l => String.mk (stripL l.data))).filter (fun l => l ≠ "")).map
    (fun line =>
      match fetch (classifySource line) line with
      | some d => ⟨some d, sortKeyOf d, line⟩
      | none => ⟨none, "", line⟩)

/-- Stable insertion of an entry in front of the first entry with a
    key not below its own. -/
def insSorted (x : CitEntry) : List CitEntry → List CitEntry
  | [] => [x]
  | y :: ys => if x.sort_key ≤ y.sort_key then x :: y :: ys else y :: insSorted x ys

/-- `valid_citations.sort(key=lambda x: x['sort_key'])` (line 650): Python's
    list.sort is a stable sort by the key; we model it as stable insertion
    sort (all stable sorts by the same key agree extensionally). -/
def sortEntries : List CitEntry → List CitEntry
  | [] => []
  | x :: xs => insSorted x (sortEntries xs)

/-- The lowercase first-author family name an entry's record determines
    (the value the code stores in sort_key for successful entries). -/
def entryFamilyKey (e : CitEntry) : String :=
  match e.csl_data with
  | some d => sortKeyOf d
  | none => ""

/-- Lines 645-651: in alphabetical mode sort only the non-error entries and
    append the error entries after them in their original order. -/
def orderEntries (alpha : Bool) (l : List CitEntry) : List CitEntry :=
  if alpha then
    sortEntries (l.filter (fun e => !e.error)) ++ l.filter (fun e => e.error)
  else l

/-! ### Decimal numerals (for citation numbers) -/

def digitCh (n : Nat) : Char := Char.ofNat (48 + n)

def natStrAux : Nat → Nat → List Char
  | 0, _ => []
  | f + 1, n => if n < 10 then [digitCh n] else natStrAux f (n / 10) ++ [digitCh (n % 10)]

/-- Decimal numeral of a natural number (the text an f-string interpolation
    of the citation counter produces). -/
def natStr (n : Nat) : List Char := natStrAux (n + 1) n

/-! ### re.sub as an explicit scanner

    A substitution pass walks the string left to right; at each position the
    matcher inspects the current suffix and either matches (returning the
    replacement text and the number of matched characters beyond the first —
    every pattern below matches at least one character) or does not.  On a
    match the scan continues after the matched text (non-overlapping, as
    re.sub does).  The scanners carry fuel to stay structurally recursive;
    fuel = input length always suffices. -/

def tabC : Char := Char.ofNat 9

def nlC : Char := Char.ofNat 10

def scanSubA (m : List Char → Option (List Char × Nat)) : Nat → List Char → List Char
  | 0, l => l
  | _ + 1, [] => []
  | f + 1, c :: cs =>
    match m (c :: cs) with
    | some (rep, k) => rep ++ scanSubA m f (cs.drop k)
    | none => c :: scanSubA m f cs

def scanSub (m : List Char → Option (List Char × Nat)) (l : List Char) : List Char :=
  scanSubA m l.length l

/-- Variant whose matcher also sees the previous character of the original
    string (`none` at the start), for `\b` and MULTILINE `^`. -/
def scanSubPA (m : Option Char → List Char → Option (List Char × Nat)) :
    Nat → Option Char → List Char → List Char
  | 0, _, l => l
  | _ + 1, _, [] => []
  | f + 1, prev, c :: cs =>
    match m prev (c :: cs) with
    | some (rep, k) => rep ++ scanSubPA m f (some ((cs.take k).getLastD c)) (cs.drop k)
    | none => c :: scanSubPA m f (some c) cs

def scanSubP (m : Option Char → List Char → Option (List Char × Nat))
    (l : List Char) : List Char :=
  scanSubPA m l.length none l

/-- `scanSubP` started from an arbitrary previous character (used to state
    lemmas about scans resumed mid-string). -/
def scanSubPFrom (m : Option Char → List Char → Option (List Char × Nat))
    (pv : Option Char) (l : List Char) : List Char :=
  scanSubPA m l.length pv l

/-- The previous character after the scan has passed `l` (fallback `pv`
    when `l` is empty). -/
def lastCharP (l : List Char) (pv : Option Char) : Option Char :=
  match l.getLast? with
  | some c => some c
  | none => pv

/-- Match a literal at the head, returning the rest. -/
def dropLit : List Char → List Char → Option (List Char)
  | [], l => some l
  | _ :: _, [] => none
  | p :: ps, c :: cs => if c = p then dropLit ps cs else none

/-- Case-insensitive literal match at the head (re.IGNORECASE). -/
def dropLitCI : List Char → List Char → Option (List Char)
  | [], l => some l
  | _ :: _, [] => none
  | p :: ps, c :: cs => if lc c = lc p then dropLitCI ps cs else none

/-- Maximal run of characters satisfying `p` (greedy `X*` and `X+`);
    returns (count, rest). -/
def munch (p : Char → Bool) : List Char → Nat × List Char
  | [] => (0, [])
  | c :: cs => if p c then ((munch p cs).1 + 1, (munch p cs).2) else (0, c :: cs)

/-- Greedy `\.?`: consume one leading period when present. -/
def peekDot (l : List Char) : Nat × List Char :=
  match l with
  | c :: r => if c = '.' then (1, r) else (0, c :: r)
  | [] => (0, [])

/-- MULTILINE `^`: at the string start or right after a newline. -/
def atLineStart (prev : Option Char) : Bool :=
  match prev with
  | none => true
  | some c => c = nlC

/-! ### The et-al step of process_csl (app.py lines 391-520) -/

def etal5 : List Char := 'e' :: 't' :: ' ' :: 'a' :: 'l' :: []

def italRep : List Char := '<' :: 'i' :: '>' :: 'e' :: 't' :: ' ' :: 'a' :: 'l' :: '.' :: '<' :: '/' :: 'i' :: '>' :: []

/-- `re.sub(r'\bet al\.', '<i>et al.</i>', html, IGNORECASE)` (lines 415-420). -/
def mEtAl1 (prev : Option Char) (l : List Char) : Option (List Char × Nat) :=
  if (prev.map isWordC).getD false then none
  else
    match dropLitCI (etal5 ++ ['.']) l with
    | some _ => some (italRep, 5)
    | none => none

/-- `re.sub(r'\bet al\b(?!\.)', '<i>et al.</i>', html, IGNORECASE)`
    (lines 422-427). -/
def mEtAl2 (prev : Option Char) (l : List Char) : Option (List Char × Nat) :=
  if (prev.map isWordC).getD false then none
  else
    match dropLitCI etal5 l with
    | some rest =>
      match rest with
      | [] => some (italRep, 4)
      | c :: _ => if isWordC c || c = '.' then none else some (italRep, 4)
    | none => none

def italicizeEtAl (l : List Char) : List Char := scanSubP mEtAl2 (scanSubP mEtAl1 l)

/-- Greedy `([A-Z]\.?\s*)+` body: consumed length of zero or more group
    iterations (the caller requires at least one). -/
def groupsAZ : Nat → List Char → Nat × List Char
  | 0, l => (0, l)
  | _ + 1, [] => (0, [])
  | f + 1, c :: cs =>
    if isUpperC c then
      let (d, r1) := match cs with | '.' :: r => (1, r) | _ => (0, cs)
      let (s, r2) := munch isSpaceC r1
      let (n, r3) := groupsAZ f r2
      (1 + d + s + n, r3)
    else (0, c :: cs)

/-- Match length of `re.escape(family) + r',\s+([A-Z]\.?\s*)+\.?'` at the
    head of `l` (line 461). -/
def mAuthorPat (family : List Char) (l : List Char) : Option Nat :=
  match dropLit family l with
  | none => none
  | some r0 =>
    match r0 with
    | ',' :: r1 =>
      let (s, r2) := munch isSpaceC r1
      if s = 0 then none
      else
        let (g, r3) := groupsAZ r2.length r2
        if g = 0 then none
        else
          let t := match r3 with | '.' :: _ => 1 | _ => 0
          some (family.length + 1 + s + g + t)
    | _ => none

/-- Greedy `(?:\s+[A-Z]\.?)*` body. -/
def initTail : Nat → List Char → Nat × List Char
  | 0, l => (0, l)
  | f + 1, l =>
    let (s, r1) := munch isSpaceC l
    if s = 0 then (0, l)
    else
      match r1 with
      | c :: cs =>
        if isUpperC c then
          let (d, r2) := match cs with | '.' :: r => (1, r) | _ => (0, cs)
          let (n, r3) := initTail f r2
          (s + 1 + d + n, r3)
        else (0, l)
      | [] => (0, l)

/-- Match length of `r',\s+[A-Z]\.?(?:\s+[A-Z]\.?)*\.?'` at the head of `l`
    (line 489). -/
def mInitialPat (l : List Char) : Option Nat :=
  match l with
  | ',' :: r1 =>
    let (s, r2) := munch isSpaceC r1
    if s = 0 then none
    else
      match r2 with
      | c :: cs =>
        if isUpperC c then
          let (d, r3) := match cs with | '.' :: r => (1, r) | _ => (0, cs)
          let (t, r4) := initTail r3.length r3
          let fin := match r4 with | '.' :: _ => 1 | _ => 0
          some (1 + s + 1 + d + t + fin)
        else none
      | [] => none
  | _ => none

/-- `re.finditer`: end position of the last non-overlapping match. -/
def lastEndAux (m : List Char → Option Nat) : Nat → Nat → List Char → Option Nat → Option Nat
  | 0, _, _, best => best
  | f + 1, pos, l, best =>
    match l with
    | [] => best
    | _ :: cs =>
      match m l with
      | some len =>
        if len = 0 then lastEndAux m f (pos + 1) cs (some pos)
        else lastEndAux m f (pos + len) (l.drop len) (some (pos + len))
      | none => lastEndAux m f (pos + 1) cs best

def finditerLastEnd (m : List Char → Option Nat) (l : List Char) : Option Nat :=
  lastEndAux m (l.length + 1) 0 l none

/-- `re.search`: first match as (start, length). -/
def searchPosAux (m : List Char → Option Nat) : Nat → Nat → List Char → Option (Nat × Nat)
  | 0, _, _ => none
  | f + 1, pos, l =>
    match m l with
    | some len => some (pos, len)
    | none =>
      match l with
      | [] => none
      | _ :: cs => searchPosAux m f (pos + 1) cs

def searchPos (m : List Char → Option Nat) (l : List Char) : Option (Nat × Nat) :=
  searchPosAux m (l.length + 1) 0 l

/-- `s.rfind(pat)`: start of the last occurrence. -/
def rfindAux (pat : List Char) : Nat → List Char → Option Nat → Option Nat
  | _, [], best => best
  | pos, c :: cs, best =>
    rfindAux pat (pos + 1) cs (if pat.isPrefixOf (c :: cs) then some pos else best)

def rfindL (pat l : List Char) : Option Nat := rfindAux pat 0 l none

/-- `s.find(ch, start)`. -/
def findFrom (ch : Char) (l : List Char) (start : Nat) : Option Nat :=
  match (l.drop start).findIdx? (· = ch) with
  | some i => some (start + i)
  | none => none

def etalIns : List Char := ' ' :: italRep

def spliceAt (l : List Char) (n : Nat) : List Char := l.take n ++ etalIns ++ l.drop n

/-- Lines 435-520: insert " <i>et al.</i>" after the last displayed author.
    `displayed` is the displayed-author count computed before. -/
def insertEtAl (data : CslData) (displayed : Nat) (html : List Char) : List Char :=
  let lastAuthor : Option Author :=
    if 0 < displayed then data.author.get? (displayed - 1) else none
  match lastAuthor with
  | some a =>
    if a.family ≠ "" ∧ a.given ≠ "" then
      let fam := a.family.data
      match finditerLastEnd (mAuthorPat fam) html with
      | some e => spliceAt html e
      | none =>
        match rfindL fam html with
        | some fpos =>
          let range := (html.drop fpos).take 100
          match searchPos mInitialPat range with
          | some (p, len) => spliceAt html (fpos + p + len)
          | none =>
            match findFrom '.' html fpos with
            | some ppos => spliceAt html (ppos + 1)
            | none => rstripL html ++ etalIns
        | none => rstripL html ++ etalIns
    else rstripL html ++ etalIns
  | none => rstripL html ++ etalIns

/-- Lines 399-404: number of record authors whose (nonempty) family name
    occurs verbatim in the rendered HTML. -/
def displayedCount (data : CslData) (html : List Char) : Nat :=
  data.author.foldl
    (fun n a => if a.family ≠ "" ∧ containsL a.family.data html then n + 1 else n) 0

/-- Lines 391-520: italicize an existing "et al" (detected by raw substring
    containment on the lowercased HTML), otherwise insert one when the
    author count exceeds the displayed-author count. -/
def etAlStage (data : CslData) (html : List Char) : List Char :=
  let hasEtAl := containsL etal5 (lcL html)
  let displayed := displayedCount data html
  if hasEtAl then italicizeEtAl html
  else if displayed < data.author.length then insertEtAl data displayed html
  else html

/-! ### The numbering step of process_csl (app.py lines 525-572) -/

/-- `(\d+\.)([A-Za-z])` → `\1\t\2` (line 527). -/
def mGlue1 (l : List Char) : Option (List Char × Nat) :=
  match (munch isDigitC l).2 with
  | e :: c :: _ =>
    if (munch isDigitC l).1 ≠ 0 ∧ e = '.' ∧ isLetterC c then
      some (l.take (munch isDigitC l).1 ++ '.' :: tabC :: c :: [], (munch isDigitC l).1 + 1)
    else none
  | _ => none

/-- `(\d+\.</div>)([A-Za-z])` → `\1\t\2` (line 530). -/
def mGlue2 (l : List Char) : Option (List Char × Nat) :=
  match dropLit ('.' :: '<' :: '/' :: 'd' :: 'i' :: 'v' :: '>' :: []) (munch isDigitC l).2 with
  | some (c :: _) =>
    if (munch isDigitC l).1 ≠ 0 ∧ isLetterC c then
      some (l.take (munch isDigitC l).1 ++ ('.' :: '<' :: '/' :: 'd' :: 'i' :: 'v' :: '>' :: []) ++
            tabC :: c :: [], (munch isDigitC l).1 + 7)
    else none
  | _ => none

/-- `^(\d+\.)([A-Za-z])` MULTILINE → `\1\t\2` (line 533). -/
def mGlue3 (prev : Option Char) (l : List Char) : Option (List Char × Nat) :=
  if atLineStart prev then mGlue1 l else none

/-- `\d+\.\t` → `f'{n}.\t'` (lines 538-542). -/
def mRenum1 (n : Nat) (l : List Char) : Option (List Char × Nat) :=
  match (munch isDigitC l).2 with
  | e :: t :: _ =>
    if (munch isDigitC l).1 ≠ 0 ∧ e = '.' ∧ t = tabC then
      some (natStr n ++ '.' :: tabC :: [], (munch isDigitC l).1 + 1)
    else none
  | _ => none

def divLit : List Char := '<' :: "div class=\"csl-left-margin\">".data

/-- `(<div class="csl-left-margin">)\d+(\.?</div>)` → `\g<1>{n}\g<2>`
    (lines 544-548). -/
def mRenum2 (n : Nat) (l : List Char) : Option (List Char × Nat) :=
  match dropLit divLit l with
  | none => none
  | some r0 =>
    if (munch isDigitC r0).1 = 0 then none
    else
      match dropLit ('<' :: '/' :: 'd' :: 'i' :: 'v' :: '>' :: []) (peekDot (munch isDigitC r0).2).2 with
      | some _ =>
        some (divLit ++ natStr n ++ (if (peekDot (munch isDigitC r0).2).1 = 1 then ['.'] else []) ++
              ('<' :: '/' :: 'd' :: 'i' :: 'v' :: '>' :: []),
              divLit.length + (munch isDigitC r0).1 + (peekDot (munch isDigitC r0).2).1 + 5)
      | none => none

/-- `^(\s*)\d+\.(\s)` MULTILINE → `\g<1>{n}.\g<2>` (lines 550-555). -/
def mRenum3 (n : Nat) (prev : Option Char) (l : List Char) : Option (List Char × Nat) :=
  if atLineStart prev then
    match (munch isDigitC (munch isSpaceC l).2).2 with
    | e :: c :: _ =>
      if (munch isDigitC (munch isSpaceC l).2).1 ≠ 0 ∧ e = '.' ∧ isSpaceC c then
        some (l.take (munch isSpaceC l).1 ++ natStr n ++ '.' :: c :: [],
              (munch isSpaceC l).1 + (munch isDigitC (munch isSpaceC l).2).1 + 1)
      else none
    | _ => none
  else none

/-- `(>)\s*\d+\.(\s)` → `\g<1>{n}.\g<2>` (lines 557-561). -/
def mRenum4 (n : Nat) (l : List Char) : Option (List Char × Nat) :=
  match l with
  | g :: r0 =>
    if g = '>' then
      match (munch isDigitC (munch isSpaceC r0).2).2 with
      | e :: c :: _ =>
        if (munch isDigitC (munch isSpaceC r0).2).1 ≠ 0 ∧ e = '.' ∧ isSpaceC c then
          some ('>' :: natStr n ++ '.' :: c :: [],
                (munch isSpaceC r0).1 + (munch isDigitC (munch isSpaceC r0).2).1 + 2)
        else none
      | _ => none
    else none
  | [] => none

/-- `\d+\.\t` → `''` (lines 564-568, alphabetical mode). -/
def mDelTab (l : List Char) : Option (List Char × Nat) :=
  match (munch isDigitC l).2 with
  | e :: t :: _ =>
    if (munch isDigitC l).1 ≠ 0 ∧ e = '.' ∧ t = tabC then some ([], (munch isDigitC l).1 + 1)
    else none
  | _ => none

def nbsp4 : List Char := "&nbsp;&nbsp;&nbsp;&nbsp;".data

/-- `result_html.replace('\t', '&nbsp;&nbsp;&nbsp;&nbsp;')` (line 572). -/
def replaceTabL : List Char → List Char
  | [] => []
  | c :: cs => (if c = tabC then nbsp4 else [c]) ++ replaceTabL cs

/-- Lines 525-572: tab insertion after glued numeric markers, then
    renumbering (sequential mode) or marker deletion (alphabetical mode),
    then tab rendering as non-breaking spaces. -/
def numberingStage (num : Option Nat) (l : List Char) : List Char :=
  let s1 := scanSub mGlue1 l
  let s2 := scanSub mGlue2 s1
  let s3 := scanSubP mGlue3 s2
  let s4 :=
    match num with
    | some n => scanSub (mRenum4 n) (scanSubP (mRenum3 n) (scanSub (mRenum2 n) (scanSub (mRenum1 n) s3)))
    | none => scanSub mDelTab s3
  replaceTabL s4

/-! ### The punctuation cleanup step of process_csl (lines 574-578) -/

/-- `\.\.+` → `.`. -/
def mDots (l : List Char) : Option (List Char × Nat) :=
  match l with
  | c :: d :: rest =>
    if c = '.' ∧ d = '.' then some (['.'], (munch (fun x => x = '.') rest).1 + 1) else none
  | _ => none

/-- `\.\s+\.` → `.`. -/
def mDotSpDot (l : List Char) : Option (List Char × Nat) :=
  match l with
  | c :: r0 =>
    if c = '.' then
      match (munch isSpaceC r0).2 with
      | d :: _ =>
        if (munch isSpaceC r0).1 ≠ 0 ∧ d = '.' then some (['.'], (munch isSpaceC r0).1 + 1)
        else none
      | [] => none
    else none
  | [] => none

def collapseDots (l : List Char) : List Char := scanSub mDots l

def collapseDotSp (l : List Char) : List Char := scanSub mDotSpDot l

def punctCleanup (l : List Char) : List Char := collapseDotSp (collapseDots l)

/-! ### process_csl (app.py lines 308-593) -/

/-- process_csl with the external renderer's outcome abstracted: `rendered`
    is the HTML the CSL engine produced for this record, or the message of
    the exception it (or any later step) raised — the enclosing try/except
    turns exceptions into the per-entry error string (lines 586-593).
    Style resolution is external (get_csl_path); debug-trace writes are
    side-effect only and dropped. -/
def processCsl (rendered : Except String String) (data : CslData) (num : Option Nat) : String :=
  match rendered with
  | .error msg => "CSL Formatting Error for " ++ data.id ++ ": " ++ msg
  | .ok html =>
    if stripL html.data = [] then "CSL Formatting produced no output for " ++ data.id
    else String.mk (punctCleanup (numberingStage num (etAlStage data html.data)))

/-! ### The output loop of generate (app.py lines 653-682) -/

def sq : String := String.mk [Char.ofNat 39]

/-- `<span style='color:red'>Not Found or Fetch Error: {id}</span>`. -/
def redSpan (origId : String) : String :=
  "<span style=" ++ sq ++ "color:red" ++ sq ++ ">Not Found or Fetch Error: " ++ origId ++ "</span>"

/-- Lines 655-682: walk the (already ordered) entries with the citation
    counter starting at 1; failures render as the red span (numbered only in
    sequential mode), successes through process_csl; the counter advances
    only in sequential mode. -/
def renderLoop (render : CslData → Except String String) (alpha : Bool) :
    Nat → List CitEntry → List String
  | _, [] => []
  | n, e :: rest =>
    match e.csl_data with
    | none =>
      if alpha then redSpan e.original_id :: renderLoop render alpha n rest
      else (String.mk (natStr n) ++ ". " ++ redSpan e.original_id) :: renderLoop render alpha (n + 1) rest
    | some d =>
      if alpha then processCsl (render d) d none :: renderLoop render alpha n rest
      else processCsl (render d) d (some n) :: renderLoop render alpha (n + 1) rest

/-- generate (lines 600-682) over an already-split list of input lines, with
    the metadata fetch and the CSL renderer abstracted. -/
def generateCore (fetch : SourceTag → String → Option CslData)
    (render : CslData → Except String String) (alpha : Bool) (lines : List String) :
    List String :=
  renderLoop render alpha 1 (orderEntries alpha (buildEntries fetch lines))

end CM

/-! ## General lemmas about the embedded primitives -/

namespace CM

theorem dropWhile_eq_self_of (p : Char → Bool) (l : List Char)
    (h : ∀ c ∈ l, p c = false) : l.dropWhile p = l := by
  cases l with
  | nil => rfl
  | cons c cs => rw [List.dropWhile_cons, h c (by simp)]; simp

theorem stripL_eq_self (l : List Char) (h : ∀ c ∈ l, isSpaceC c = false) :
    stripL l = l := by
  unfold stripL
  rw [dropWhile_eq_self_of _ _ h, dropWhile_eq_self_of, List.reverse_reverse]
  intro c hc
  exact h c (by simpa using hc)

theorem splitChAux_no_sep (sep : Char) (acc l : List Char) (h : ∀ c ∈ l, c ≠ sep) :
    splitChAux sep acc l = [acc.reverse ++ l] := by
  induction l generalizing acc with
  | nil => simp [splitChAux]
  | cons c cs ih =>
    rw [splitChAux, if_neg (h c (by simp)), ih (c :: acc) (fun d hd => h d (by simp [hd]))]
    simp

theorem splitCh_single (sep : Char) (l : List Char) (h : ∀ c ∈ l, c ≠ sep) :
    splitCh sep l = [l] := by
  simp [splitCh, splitChAux_no_sep sep [] l h]

/-! #### Occurrence counting -/

theorem countOcc_cons (p : List Char) (c : Char) (cs : List Char) :
    countOcc p (c :: cs) = (if p.isPrefixOf (c :: cs) then 1 else 0) + countOcc p cs := rfl

theorem countOcc_eq_zero_iff (p l : List Char) (hp : p ≠ []) :
    countOcc p l = 0 ↔ ∀ s, s <:+ l → ¬ p <+: s := by
  induction l with
  | nil =>
    constructor
    · intro _ s hs hps
      rw [List.suffix_nil.mp hs] at hps
      exact hp (List.prefix_nil.mp hps)
    · intro _
      simp [countOcc, hp]
  | cons c cs ih =>
    rw [countOcc_cons]
    constructor
    · intro h s hs hps
      cases hpre : p.isPrefixOf (c :: cs) with
      | true => rw [hpre] at h; simp at h
      | false =>
        rw [hpre] at h
        simp only [Bool.false_eq_true, if_false, Nat.zero_add] at h
        rcases List.suffix_cons_iff.mp hs with rfl | hs'
        · have hcontra := List.isPrefixOf_iff_prefix.mpr hps
          rw [hpre] at hcontra
          simp at hcontra
        · exact (ih.mp h) s hs' hps
    · intro h
      have hpre : p.isPrefixOf (c :: cs) = false := by
        rw [Bool.eq_false_iff]
        intro hb
        exact h _ (List.suffix_refl _) (List.isPrefixOf_iff_prefix.mp hb)
      rw [hpre]
      simp only [Bool.false_eq_true, if_false, Nat.zero_add]
      exact ih.mpr (fun s hs => h s (hs.trans (List.suffix_cons c cs)))

theorem containsL_iff (p l : List Char) :
    containsL p l = true ↔ ∃ s, s <:+ l ∧ p <+: s := by
  induction l with
  | nil =>
    simp only [containsL, List.isEmpty_iff]
    constructor
    · intro h
      exact ⟨[], List.suffix_refl _, by simp [h]⟩
    · rintro ⟨s, hs, hps⟩
      rw [List.suffix_nil.mp hs] at hps
      exact List.prefix_nil.mp hps
  | cons c cs ih =>
    simp only [containsL, Bool.or_eq_true, List.isPrefixOf_iff_prefix, ih]
    constructor
    · rintro (h | ⟨s, hs, hps⟩)
      · exact ⟨c :: cs, List.suffix_refl _, h⟩
      · exact ⟨s, hs.trans (List.suffix_cons c _), hps⟩
    · rintro ⟨s, hs, hps⟩
      rcases List.suffix_cons_iff.mp hs with rfl | hs'
      · exact Or.inl hps
      · exact Or.inr ⟨s, hs', hps⟩

theorem containsL_eq_false_iff (p l : List Char) (hp : p ≠ []) :
    containsL p l = false ↔ countOcc p l = 0 := by
  rw [Bool.eq_false_iff, Ne, containsL_iff, countOcc_eq_zero_iff p l hp]
  push_neg
  rfl

/-! #### Prefix/suffix splitting -/

theorem prefix_cut {x a b : List Char} (h : x <+: a ++ b) (hl : x.length ≤ a.length) :
    x <+: a := by
  have hx : x = (a ++ b).take x.length := List.prefix_iff_eq_take.mp h
  rw [List.take_append_eq_append_take, Nat.sub_eq_zero_of_le hl, List.take_zero,
    List.append_nil] at hx
  exact hx ▸ List.take_prefix x.length a

theorem suffix_cut {x a b : List Char} (h : x <:+ a ++ b) (hl : x.length ≤ b.length) :
    x <:+ b := by
  rw [← List.reverse_prefix] at h ⊢
  rw [List.reverse_append] at h
  exact prefix_cut h (by simpa using hl)

theorem drop_prefix_mono {x y : List Char} (h : x <+: y) (n : Nat) :
    x.drop n <+: y.drop n := by
  obtain ⟨t, rfl⟩ := h
  rw [List.drop_append_eq_append_drop]
  exact ⟨_, rfl⟩

theorem suffix_append_cases {s a b : List Char} (h : s <:+ a ++ b) :
    s <:+ b ∨ ∃ s₁, s₁ <:+ a ∧ s₁ ≠ [] ∧ s = s₁ ++ b := by
  induction a with
  | nil => exact Or.inl (by simpa using h)
  | cons c a' ih =>
    rw [List.cons_append] at h
    rcases List.suffix_cons_iff.mp h with rfl | h'
    · exact Or.inr ⟨c :: a', List.suffix_refl _, by simp, by simp⟩
    · rcases ih h' with h'' | ⟨s₁, hs₁, hne, rfl⟩
      · exact Or.inl h''
      · exact Or.inr ⟨s₁, hs₁.trans (List.suffix_cons c _), hne, rfl⟩

theorem prefix_cons_append_iff {p : List Char} {c : Char} {u w : List Char}
    (h : ∀ k, 0 < k → k < p.length → ¬((p.take k) <:+ c :: u ∧ (p.drop k) <+: w)) :
    p <+: (c :: u) ++ w ↔ p <+: c :: u := by
  constructor
  · intro hp
    by_cases hl : p.length ≤ (c :: u).length
    · exact prefix_cut hp hl
    · exfalso
      have hk1 : 0 < (c :: u).length := by simp
      have hk2 : (c :: u).length < p.length := by omega
      refine h (c :: u).length hk1 hk2 ⟨?_, ?_⟩
      · have : p.take (c :: u).length = c :: u := by
          rw [List.prefix_iff_eq_take] at hp
          rw [hp, List.take_take, min_eq_left (by omega), List.take_left]
        rw [this]
      · have := drop_prefix_mono hp (c :: u).length
        rwa [List.drop_left] at this
  · intro hp
    exact hp.trans (List.prefix_append _ _)

theorem countOcc_append (p u w : List Char) (hp : p ≠ [])
    (h : ∀ k, 0 < k → k < p.length → ¬((p.take k) <:+ u ∧ (p.drop k) <+: w)) :
    countOcc p (u ++ w) = countOcc p u + countOcc p w := by
  induction u with
  | nil => simp [countOcc, hp]
  | cons c u' ih =>
    have hstep : ∀ k, 0 < k → k < p.length → ¬((p.take k) <:+ u' ∧ (p.drop k) <+: w) :=
      fun k h1 h2 hk => h k h1 h2 ⟨hk.1.trans (List.suffix_cons c _), hk.2⟩
    rw [List.cons_append, countOcc_cons, countOcc_cons, ih hstep]
    have heq : p.isPrefixOf (c :: (u' ++ w)) = p.isPrefixOf (c :: u') := by
      rw [Bool.eq_iff_iff, List.isPrefixOf_iff_prefix, List.isPrefixOf_iff_prefix,
        ← List.cons_append]
      exact prefix_cons_append_iff h
    rw [heq]
    omega

theorem countOcc_mid (p u mid v : List Char) (hp : p ≠ [])
    (hlen : p.length ≤ mid.length + 1)
    (h1 : ∀ k, 0 < k → k < p.length → ¬ (p.drop k) <+: mid)
    (h2 : ∀ k, 0 < k → k < p.length → ¬ (p.take k) <:+ mid) :
    countOcc p (u ++ (mid ++ v)) = countOcc p u + (countOcc p mid + countOcc p v) := by
  rw [countOcc_append p u (mid ++ v) hp, countOcc_append p mid v hp]
  · intro k hk1 hk2 hk
    exact h2 k hk1 hk2 hk.1
  · intro k hk1 hk2 hk
    have hd : (p.drop k).length ≤ mid.length := by
      rw [List.length_drop]
      omega
    exact h1 k hk1 hk2 (prefix_cut hk.2 hd)

theorem countOcc_zero_take (p l : List Char) (hp : p ≠ []) (h : countOcc p l = 0)
    (n : Nat) : countOcc p (l.take n) = 0 := by
  rw [countOcc_eq_zero_iff p _ hp] at h ⊢
  intro s hs hps
  refine h (s ++ l.drop n) ?_ (hps.trans (List.prefix_append s (l.drop n)))
  obtain ⟨x, hx⟩ := hs
  exact ⟨x, by rw [← List.append_assoc, hx, List.take_append_drop]⟩

theorem countOcc_zero_drop (p l : List Char) (hp : p ≠ []) (h : countOcc p l = 0)
    (n : Nat) : countOcc p (l.drop n) = 0 := by
  rw [countOcc_eq_zero_iff p _ hp] at h ⊢
  intro s hs hps
  exact h s (hs.trans (List.drop_suffix n l)) hps

theorem countOcc_map_zero (f : Char → Char) (p l : List Char) (hp : p ≠ [])
    (h : countOcc (p.map f) (l.map f) = 0) : countOcc p l = 0 := by
  rw [countOcc_eq_zero_iff _ _ hp]
  rw [countOcc_eq_zero_iff _ _ (by simpa using hp)] at h
  intro s hs hps
  exact h (s.map f) (hs.map f) (hps.map f)

/-! #### Scanner recursion equations -/

theorem scanSubA_nil (m : List Char → Option (List Char × Nat)) (f : Nat) :
    scanSubA m f [] = [] := by
  cases f <;> rfl

theorem scanSubA_fuel (m : List Char → Option (List Char × Nat)) :
    ∀ f g l, l.length ≤ f → l.length ≤ g → scanSubA m f l = scanSubA m g l := by
  intro f
  induction f with
  | zero =>
    intro g l hf _
    have : l = [] := by
      cases l with
      | nil => rfl
      | cons c cs => simp at hf
    subst this
    rw [scanSubA_nil, scanSubA_nil]
  | succ f ih =>
    intro g l hf hg
    cases l with
    | nil => rw [scanSubA_nil, scanSubA_nil]
    | cons c cs =>
      cases g with
      | zero => simp at hg
      | succ g =>
        simp only [scanSubA]
        cases hm : m (c :: cs) with
        | none =>
          dsimp only
          simp only [List.length_cons] at hf hg
          rw [ih g cs (by omega) (by omega)]
        | some rk =>
          obtain ⟨rep, k⟩ := rk
          dsimp only
          simp only [List.length_cons] at hf hg
          have hd : (cs.drop k).length ≤ cs.length := by
            rw [List.length_drop]; omega
          rw [ih g (cs.drop k) (by omega) (by omega)]

theorem scanSub_cons (m : List Char → Option (List Char × Nat)) (c : Char) (cs : List Char) :
    scanSub m (c :: cs) =
      match m (c :: cs) with
      | some (rep, k) => rep ++ scanSub m (cs.drop k)
      | none => c :: scanSub m cs := by
  show scanSubA m (cs.length + 1) (c :: cs) = _
  simp only [scanSubA]
  cases hm : m (c :: cs) with
  | none =>
    dsimp only
    rfl
  | some rk =>
    obtain ⟨rep, k⟩ := rk
    dsimp only
    rw [scanSubA_fuel m cs.length (cs.drop k).length (cs.drop k)
      (by rw [List.length_drop]; omega) (le_refl _)]
    rfl

theorem scanSub_nil (m : List Char → Option (List Char × Nat)) : scanSub m [] = [] := rfl

theorem scanSub_eq_self (m : List Char → Option (List Char × Nat)) (l : List Char)
    (h : ∀ s, s <:+ l → s ≠ [] → m s = none) : scanSub m l = l := by
  induction l with
  | nil => rfl
  | cons c cs ih =>
    rw [scanSub_cons, h (c :: cs) (List.suffix_refl _) (by simp)]
    exact congrArg (c :: ·) (ih (fun s hs => h s (hs.trans (List.suffix_cons c _))))

theorem scanSub_append (m : List Char → Option (List Char × Nat)) (u w : List Char)
    (h : ∀ s, s <:+ u → s ≠ [] → m (s ++ w) = none) :
    scanSub m (u ++ w) = u ++ scanSub m w := by
  induction u with
  | nil => rfl
  | cons c u' ih =>
    rw [List.cons_append, scanSub_cons]
    have := h (c :: u') (List.suffix_refl _) (by simp)
    rw [List.cons_append] at this
    rw [this]
    rw [ih (fun s hs => h s (hs.trans (List.suffix_cons c _)))]
    rfl

theorem scanSubPA_nil (m : Option Char → List Char → Option (List Char × Nat))
    (f : Nat) (pv : Option Char) : scanSubPA m f pv [] = [] := by
  cases f <;> rfl

theorem scanSubPA_fuel (m : Option Char → List Char → Option (List Char × Nat)) :
    ∀ f g pv l, l.length ≤ f → l.length ≤ g → scanSubPA m f pv l = scanSubPA m g pv l := by
  intro f
  induction f with
  | zero =>
    intro g pv l hf _
    have : l = [] := by
      cases l with
      | nil => rfl
      | cons c cs => simp at hf
    subst this
    rw [scanSubPA_nil, scanSubPA_nil]
  | succ f ih =>
    intro g pv l hf hg
    cases l with
    | nil => rw [scanSubPA_nil, scanSubPA_nil]
    | cons c cs =>
      cases g with
      | zero => simp at hg
      | succ g =>
        simp only [scanSubPA]
        cases hm : m pv (c :: cs) with
        | none =>
          dsimp only
          simp only [List.length_cons] at hf hg
          rw [ih g (some c) cs (by omega) (by omega)]
        | some rk =>
          obtain ⟨rep, k⟩ := rk
          dsimp only
          simp only [List.length_cons] at hf hg
          rw [ih g _ (cs.drop k) (by rw [List.length_drop]; omega)
            (by rw [List.length_drop]; omega)]

theorem scanSubPFrom_cons (m : Option Char → List Char → Option (List Char × Nat))
    (pv : Option Char) (c : Char) (cs : List Char) :
    scanSubPFrom m pv (c :: cs) =
      match m pv (c :: cs) with
      | some (rep, k) => rep ++ scanSubPFrom m (some ((cs.take k).getLastD c)) (cs.drop k)
      | none => c :: scanSubPFrom m (some c) cs := by
  show scanSubPA m (cs.length + 1) pv (c :: cs) = _
  simp only [scanSubPA]
  cases hm : m pv (c :: cs) with
  | none =>
    dsimp only
    rfl
  | some rk =>
    obtain ⟨rep, k⟩ := rk
    dsimp only
    rw [scanSubPA_fuel m cs.length (cs.drop k).length _ (cs.drop k)
      (by rw [List.length_drop]; omega) (le_refl _)]
    rfl

theorem scanSubP_eq_from (m : Option Char → List Char → Option (List Char × Nat))
    (l : List Char) : scanSubP m l = scanSubPFrom m none l := rfl

theorem scanSubPFrom_eq_self (m : Option Char → List Char → Option (List Char × Nat))
    (pv : Option Char) (l : List Char)
    (h : ∀ prev s, s <:+ l → s ≠ [] → m prev s = none) : scanSubPFrom m pv l = l := by
  induction l generalizing pv with
  | nil => rfl
  | cons c cs ih =>
    rw [scanSubPFrom_cons, h pv (c :: cs) (List.suffix_refl _) (by simp)]
    exact congrArg (c :: ·) (ih (some c) (fun pr s hs => h pr s (hs.trans (List.suffix_cons c _))))

theorem lastCharP_cons (c : Char) (u : List Char) (pv : Option Char) :
    lastCharP (c :: u) pv = lastCharP u (some c) := by
  cases u with
  | nil => rfl
  | cons d u' =>
    unfold lastCharP
    rw [List.getLast?_cons_cons]
    cases hgl : (d :: u').getLast? with
    | none => simp at hgl
    | some x => rfl

theorem scanSubPFrom_append (m : Option Char → List Char → Option (List Char × Nat))
    (u w : List Char) (pv : Option Char)
    (h : ∀ prev s, s <:+ u → s ≠ [] → m prev (s ++ w) = none) :
    scanSubPFrom m pv (u ++ w) = u ++ scanSubPFrom m (lastCharP u pv) w := by
  induction u generalizing pv with
  | nil => rfl
  | cons c u' ih =>
    rw [List.cons_append, scanSubPFrom_cons]
    have h0 := h pv (c :: u') (List.suffix_refl _) (by simp)
    rw [List.cons_append] at h0
    rw [h0, ih (some c) (fun pr s hs => h pr s (hs.trans (List.suffix_cons c _))),
      lastCharP_cons]
    rfl

/-! #### munch and numerals -/

theorem munch_append (p : Char → Bool) (a b : List Char) (ha : ∀ c ∈ a, p c = true) :
    munch p (a ++ b) = ((munch p b).1 + a.length, (munch p b).2) := by
  induction a with
  | nil => simp
  | cons c a' ih =>
    rw [List.cons_append]
    show munch p (c :: (a' ++ b)) = _
    rw [munch, if_pos (ha c (by simp)), ih (fun d hd => ha d (by simp [hd]))]
    simp
    omega

theorem munch_zero (p : Char → Bool) (b : List Char)
    (h : ∀ c, b.headD ' ' = c → b ≠ [] → p c = false) : munch p b = (0, b) := by
  cases b with
  | nil => rfl
  | cons c cs =>
    rw [munch, if_neg]
    rw [h c (by simp) (by simp)]
    simp

theorem natStrAux_spec : ∀ f n, n < f →
    natStrAux f n ≠ [] ∧ ∀ c ∈ natStrAux f n, isDigitC c = true := by
  intro f
  induction f with
  | zero => intro n h; omega
  | succ f ih =>
    intro n h
    by_cases h10 : n < 10
    · rw [natStrAux, if_pos h10]
      refine ⟨by simp, ?_⟩
      intro c hc
      simp only [List.mem_singleton] at hc
      subst hc
      interval_cases n <;> decide
    · rw [natStrAux, if_neg h10]
      have hd : n / 10 < f := by
        have := Nat.div_lt_self (by omega : 0 < n) (by omega : 1 < 10)
        omega
      obtain ⟨h1, h2⟩ := ih (n / 10) hd
      refine ⟨by simp, ?_⟩
      intro c hc
      rw [List.mem_append] at hc
      rcases hc with hc | hc
      · exact h2 c hc
      · simp only [List.mem_singleton] at hc
        subst hc
        have : n % 10 < 10 := Nat.mod_lt n (by omega)
        have h9 : n % 10 ≤ 9 := by omega
        unfold digitCh
        interval_cases hn : (n % 10) <;> decide

theorem munch_snd (p : Char → Bool) (l : List Char) :
    (munch p l).2 = l.drop (munch p l).1 := by
  induction l with
  | nil => rfl
  | cons c cs ih =>
    cases hc : p c with
    | true => simp [munch, hc, ih, List.drop_succ_cons]
    | false => simp [munch, hc]

theorem munch_head_false (p : Char → Bool) (l : List Char) (c : Char) (t : List Char)
    (h : (munch p l).2 = c :: t) : p c = false := by
  induction l with
  | nil => simp [munch] at h
  | cons d cs ih =>
    cases hd : p d with
    | true =>
      simp only [munch, hd, if_true] at h
      exact ih h
    | false =>
      simp only [munch, hd, Bool.false_eq_true, if_false] at h
      injection h with h1 h2
      rw [← h1]
      exact hd

theorem collapseDots_cons_ne (c : Char) (cs : List Char) (hc : c ≠ '.') :
    collapseDots (c :: cs) = c :: collapseDots cs := by
  unfold collapseDots
  rw [scanSub_cons]
  have hno : mDots (c :: cs) = none := by
    cases cs with
    | nil => rfl
    | cons d rest => simp [mDots, hc]
  rw [hno]

theorem collapseDots_single_dot (d : Char) (rest : List Char) (hd : d ≠ '.') :
    collapseDots ('.' :: d :: rest) = '.' :: collapseDots (d :: rest) := by
  unfold collapseDots
  rw [scanSub_cons]
  have hno : mDots ('.' :: d :: rest) = none := by
    simp [mDots, hd]
  rw [hno]

theorem collapseDots_run (rest : List Char) :
    collapseDots ('.' :: '.' :: rest) =
      '.' :: collapseDots (rest.drop (munch (fun x => x = '.') rest).1) := by
  unfold collapseDots
  rw [scanSub_cons]
  have hm : mDots ('.' :: '.' :: rest) =
      some (['.'], (munch (fun x => x = '.') rest).1 + 1) := by
    simp [mDots]
  rw [hm]
  simp [List.drop_succ_cons]

theorem collapseDots_noDD :
    ∀ n (l : List Char), l.length ≤ n →
      countOcc ('.' :: '.' :: []) (collapseDots l) = 0 := by
  intro n
  induction n with
  | zero =>
    intro l h
    have : l = [] := by
      cases l with
      | nil => rfl
      | cons c cs => simp at h
    subst this
    decide
  | succ n ih =>
    intro l hl
    cases l with
    | nil => decide
    | cons c cs =>
      by_cases hc : c = '.'
      · subst hc
        cases cs with
        | nil => decide
        | cons d rest =>
          by_cases hd : d = '.'
          · subst hd
            rw [collapseDots_run rest]
            have hrec : countOcc ('.' :: '.' :: [])
                (collapseDots (rest.drop (munch (fun x => x = '.') rest).1)) = 0 := by
              refine ih _ ?_
              simp only [List.length_cons] at hl
              rw [List.length_drop]
              omega
            rw [countOcc_cons]
            have hnp : ('.' :: '.' :: []).isPrefixOf
                ('.' :: collapseDots (rest.drop (munch (fun x => x = '.') rest).1)) = false := by
              rw [Bool.eq_false_iff]
              intro hb
              have hpre := List.isPrefixOf_iff_prefix.mp hb
              have h2 := (List.cons_prefix_cons.mp hpre).2
              -- the collapsed remainder starts with a non-period (or is empty)
              rcases hX : rest.drop (munch (fun x => x = '.') rest).1 with _ | ⟨e, t⟩
              · rw [hX] at h2
                have hnil : collapseDots ([] : List Char) = [] := rfl
                rw [hnil] at h2
                exact absurd (List.prefix_nil.mp h2) (by simp)
              · have he : e ≠ '.' := by
                  have := munch_head_false (fun x => x = '.') rest e t (by rw [munch_snd, hX])
                  simpa using this
                rw [hX, collapseDots_cons_ne e t he] at h2
                exact he (List.cons_prefix_cons.mp h2).1.symm
            rw [hnp]
            simpa using hrec
          · rw [collapseDots_single_dot d rest hd]
            have hrec : countOcc ('.' :: '.' :: []) (collapseDots (d :: rest)) = 0 := by
              refine ih _ ?_
              simp only [List.length_cons] at hl ⊢
              omega
            rw [countOcc_cons]
            have hnp : ('.' :: '.' :: []).isPrefixOf ('.' :: collapseDots (d :: rest)) = false := by
              rw [Bool.eq_false_iff]
              intro hb
              have hpre := List.isPrefixOf_iff_prefix.mp hb
              have h2 := (List.cons_prefix_cons.mp hpre).2
              rw [collapseDots_cons_ne d rest hd] at h2
              exact hd (List.cons_prefix_cons.mp h2).1.symm
            rw [hnp]
            simpa using hrec
      · rw [collapseDots_cons_ne c cs hc, countOcc_cons]
        have hnp : ('.' :: '.' :: []).isPrefixOf (c :: collapseDots cs) = false := by
          rw [Bool.eq_false_iff]
          intro hb
          exact hc (List.cons_prefix_cons.mp (List.isPrefixOf_iff_prefix.mp hb)).1.symm
        rw [hnp]
        have hrec : countOcc ('.' :: '.' :: []) (collapseDots cs) = 0 := by
          refine ih _ ?_
          simp only [List.length_cons] at hl
          omega
        simpa using hrec

theorem collapseDots_fixed (l : List Char) (h : countOcc ('.' :: '.' :: []) l = 0) :
    collapseDots l = l := by
  induction l with
  | nil => rfl
  | cons c cs ih =>
    cases hb : ('.' :: '.' :: []).isPrefixOf (c :: cs) with
    | true =>
      rw [countOcc_cons, hb] at h
      simp at h
    | false =>
      rw [countOcc_cons, hb] at h
      simp only [Bool.false_eq_true, if_false, Nat.zero_add] at h
      have hno : mDots (c :: cs) = none := by
        cases cs with
        | nil => rfl
        | cons d rest =>
          by_cases hcd : c = '.' ∧ d = '.'
          · exfalso
            obtain ⟨rfl, rfl⟩ := hcd
            have : ('.' :: '.' :: []).isPrefixOf ('.' :: '.' :: rest) = true := by
              rw [List.isPrefixOf_iff_prefix]
              exact ⟨rest, rfl⟩
            rw [this] at hb
            simp at hb
          · simp [mDots, hcd]
      show scanSub mDots (c :: cs) = c :: cs
      rw [scanSub_cons, hno]
      exact congrArg (c :: ·) (ih h)

theorem natStr_ne_nil (n : Nat) : natStr n ≠ [] := (natStrAux_spec (n + 1) n (by omega)).1

theorem natStr_digits (n : Nat) : ∀ c ∈ natStr n, isDigitC c = true :=
  (natStrAux_spec (n + 1) n (by omega)).2

/-! #### Character-class facts -/

theorem digitC_props (c : Char) (h : isDigitC c = true) :
    c ≠ '>' ∧ c ≠ tabC ∧ c ≠ '.' ∧ c ≠ '<' ∧ isSpaceC c = false ∧ isLetterC c = false := by
  have hn := of_decide_eq_true h
  refine ⟨?_, ?_, ?_, ?_, ?_, ?_⟩
  · intro heq
    rw [heq] at h
    exact absurd h (by decide)
  · intro heq
    rw [heq] at h
    exact absurd h (by decide)
  · intro heq
    rw [heq] at h
    exact absurd h (by decide)
  · intro heq
    rw [heq] at h
    exact absurd h (by decide)
  · rw [Bool.eq_false_iff]
    intro hsp
    rcases of_decide_eq_true hsp with heq | heq | heq | heq | heq | heq <;>
      (rw [heq] at h; exact absurd h (by decide))
  · rw [Bool.eq_false_iff]
    intro hlt
    have hlt2 : isUpperC c = true ∨ isLowerC c = true := by
      simpa [isLetterC] using hlt
    rcases hlt2 with hu | hl
    · have := of_decide_eq_true hu
      omega
    · have := of_decide_eq_true hl
      omega

theorem letter_not_space (c : Char) (h : isLetterC c = true) : isSpaceC c = false := by
  rw [Bool.eq_false_iff]
  intro hsp
  rcases of_decide_eq_true hsp with heq | heq | heq | heq | heq | heq <;>
    (rw [heq] at h; exact absurd h (by decide))

theorem letter_not_digit (c : Char) (h : isLetterC c = true) : isDigitC c = false := by
  cases hd : isDigitC c with
  | false => rfl
  | true =>
    have hcontra := (digitC_props c hd).2.2.2.2.2
    rw [h] at hcontra
    exact absurd hcontra (by simp)

/-! #### dropLit facts -/

theorem dropLit_some {p l r : List Char} (h : dropLit p l = some r) :
    p <+: l ∧ r = l.drop p.length := by
  induction p generalizing l with
  | nil =>
    simp only [dropLit] at h
    injection h with h
    subst h
    exact ⟨List.nil_prefix, rfl⟩
  | cons q ps ih =>
    cases l with
    | nil => simp [dropLit] at h
    | cons c cs =>
      simp only [dropLit] at h
      by_cases hc : c = q
      · rw [if_pos hc] at h
        obtain ⟨h1, h2⟩ := ih h
        subst hc
        exact ⟨List.cons_prefix_cons.mpr ⟨rfl, h1⟩, h2⟩
      · rw [if_neg hc] at h
        exact absurd h (by simp)

theorem dropLit_append (p r : List Char) : dropLit p (p ++ r) = some r := by
  induction p with
  | nil => rfl
  | cons q ps ih => simp [dropLit, ih]

/-! #### Matcher trigger conditions -/

theorem munch_fst_pos (p : Char → Bool) (l : List Char) (h : (munch p l).1 ≠ 0) :
    ∃ c ∈ l, p c = true := by
  cases l with
  | nil => simp [munch] at h
  | cons c cs =>
    cases hc : p c with
    | true => exact ⟨c, by simp, hc⟩
    | false =>
      rw [munch, hc] at h
      simp at h

theorem munch_snd_subset (p : Char → Bool) (l : List Char) : (munch p l).2 ⊆ l := by
  rw [munch_snd]
  exact List.drop_subset _ _

theorem mGlue1_fires {l rep : List Char} {k : Nat} (h : mGlue1 l = some (rep, k)) :
    ∃ c ∈ l, isDigitC c = true := by
  unfold mGlue1 at h
  repeat' split at h
  all_goals try exact Option.noConfusion h
  rename_i hcond
  exact munch_fst_pos isDigitC l hcond.1

theorem mGlue2_fires {l rep : List Char} {k : Nat} (h : mGlue2 l = some (rep, k)) :
    ∃ c ∈ l, isDigitC c = true := by
  unfold mGlue2 at h
  repeat' split at h
  all_goals try exact Option.noConfusion h
  rename_i hcond
  exact munch_fst_pos isDigitC l hcond.1

theorem mGlue3_fires {prev : Option Char} {l rep : List Char} {k : Nat}
    (h : mGlue3 prev l = some (rep, k)) : ∃ c ∈ l, isDigitC c = true := by
  unfold mGlue3 at h
  split at h
  · exact mGlue1_fires h
  · exact absurd h (by simp)

theorem mRenum1_fires_tab {n : Nat} {l rep : List Char} {k : Nat}
    (h : mRenum1 n l = some (rep, k)) : tabC ∈ l := by
  unfold mRenum1 at h
  split at h
  case h_2 => exact absurd h (by simp)
  rename_i e t rest heq
  split at h
  case isFalse => exact absurd h (by simp)
  rename_i hcond
  have ht : t ∈ (munch isDigitC l).2 := by
    rw [heq]
    simp
  have hmem := munch_snd_subset isDigitC l ht
  rwa [hcond.2.2] at hmem

theorem mDelTab_fires_tab {l rep : List Char} {k : Nat}
    (h : mDelTab l = some (rep, k)) : tabC ∈ l := by
  unfold mDelTab at h
  split at h
  case h_2 => exact absurd h (by simp)
  rename_i e t rest heq
  split at h
  case isFalse => exact absurd h (by simp)
  rename_i hcond
  have ht : t ∈ (munch isDigitC l).2 := by
    rw [heq]
    simp
  have hmem := munch_snd_subset isDigitC l ht
  rwa [hcond.2.2] at hmem

theorem mRenum2_fires_div {n : Nat} {l rep : List Char} {k : Nat}
    (h : mRenum2 n l = some (rep, k)) : divLit <+: l := by
  unfold mRenum2 at h
  split at h
  case h_1 => exact absurd h (by simp)
  rename_i r0 heq
  exact (dropLit_some heq).1

theorem mRenum3_fires {n : Nat} {prev : Option Char} {l rep : List Char} {k : Nat}
    (h : mRenum3 n prev l = some (rep, k)) : ∃ c ∈ l, isDigitC c = true := by
  unfold mRenum3 at h
  repeat' split at h
  all_goals try exact Option.noConfusion h
  rename_i hcond
  obtain ⟨c, hc, hdig⟩ := munch_fst_pos isDigitC (munch isSpaceC l).2 hcond.1
  exact ⟨c, munch_snd_subset isSpaceC l hc, hdig⟩

theorem mRenum4_fires {n : Nat} {l rep : List Char} {k : Nat}
    (h : mRenum4 n l = some (rep, k)) : ∃ c ∈ l, isDigitC c = true := by
  unfold mRenum4 at h
  split at h
  case h_2 => exact absurd h (by simp)
  rename_i g r0
  repeat' split at h
  all_goals try exact Option.noConfusion h
  rename_i hcond
  obtain ⟨c, hc, hdig⟩ := munch_fst_pos isDigitC (munch isSpaceC r0).2 hcond.1
  exact ⟨c, List.mem_cons_of_mem g (munch_snd_subset isSpaceC r0 hc), hdig⟩

/-! #### Identity of passes that cannot fire -/

theorem scanSub_id_of_digitFree (m : List Char → Option (List Char × Nat))
    (hm : ∀ {l rep : List Char} {k : Nat}, m l = some (rep, k) → ∃ c ∈ l, isDigitC c = true)
    (l : List Char) (hl : ∀ c ∈ l, isDigitC c = false) : scanSub m l = l := by
  refine scanSub_eq_self m l (fun s hs _ => ?_)
  cases hc : m s with
  | none => rfl
  | some rk =>
    obtain ⟨rep, kk⟩ := rk
    obtain ⟨c, hcmem, hcdig⟩ := hm hc
    rw [hl c (hs.subset hcmem)] at hcdig
    exact absurd hcdig (by simp)

theorem scanSubPFrom_id_of_digitFree (m : Option Char → List Char → Option (List Char × Nat))
    (hm : ∀ {prev : Option Char} {l rep : List Char} {k : Nat},
      m prev l = some (rep, k) → ∃ c ∈ l, isDigitC c = true)
    (pv : Option Char) (l : List Char) (hl : ∀ c ∈ l, isDigitC c = false) :
    scanSubPFrom m pv l = l := by
  refine scanSubPFrom_eq_self m pv l (fun prev s hs _ => ?_)
  cases hc : m prev s with
  | none => rfl
  | some rk =>
    obtain ⟨rep, kk⟩ := rk
    obtain ⟨c, hcmem, hcdig⟩ := hm hc
    rw [hl c (hs.subset hcmem)] at hcdig
    exact absurd hcdig (by simp)

theorem scanSub_id_of_tabFree (m : List Char → Option (List Char × Nat))
    (hm : ∀ {l rep : List Char} {k : Nat}, m l = some (rep, k) → tabC ∈ l)
    (l : List Char) (hl : ∀ c ∈ l, c ≠ tabC) : scanSub m l = l := by
  refine scanSub_eq_self m l (fun s hs _ => ?_)
  cases hc : m s with
  | none => rfl
  | some rk =>
    obtain ⟨rep, kk⟩ := rk
    exact absurd rfl (hl tabC (hs.subset (hm hc)))

theorem scanSub_id_of_noInfix (m : List Char → Option (List Char × Nat)) (pat : List Char)
    (hpat : pat ≠ [])
    (hm : ∀ {l rep : List Char} {k : Nat}, m l = some (rep, k) → pat <+: l)
    (l : List Char) (hl : countOcc pat l = 0) : scanSub m l = l := by
  refine scanSub_eq_self m l (fun s hs _ => ?_)
  cases hc : m s with
  | none => rfl
  | some rk =>
    obtain ⟨rep, kk⟩ := rk
    exact absurd (hm hc) ((countOcc_eq_zero_iff pat l hpat).mp hl s hs)

/-! #### Matching the passes on digit-run-headed strings -/

theorem munch_eq_zero (p : Char → Bool) (r : List Char)
    (h : ∀ c ∈ r.take 1, p c = false) : munch p r = (0, r) := by
  cases r with
  | nil => rfl
  | cons c cs => simp [munch, h c (by simp)]

theorem munch_run (p : Char → Bool) (D r : List Char) (hD : ∀ c ∈ D, p c = true)
    (hr : ∀ c ∈ r.take 1, p c = false) : munch p (D ++ r) = (D.length, r) := by
  rw [munch_append p D r hD, munch_eq_zero p r hr]
  simp

theorem mGlue1_at (D : List Char) (b : Char) (br : List Char)
    (hD : D ≠ []) (hDd : ∀ c ∈ D, isDigitC c = true) (hb : isLetterC b = true) :
    mGlue1 (D ++ '.' :: b :: br) = some (D ++ '.' :: tabC :: b :: [], D.length + 1) := by
  unfold mGlue1
  rw [munch_run isDigitC D ('.' :: b :: br) hDd (by intro c hc; simp at hc; rw [hc]; decide)]
  dsimp only
  rw [if_pos ⟨by simpa using hD, rfl, hb⟩, List.take_left]

theorem mGlue1_none_nonletter (ds : List Char) (c2 : Char) (r : List Char)
    (hds : ∀ c ∈ ds, isDigitC c = true) (hc2 : isLetterC c2 = false) :
    mGlue1 (ds ++ '.' :: c2 :: r) = none := by
  unfold mGlue1
  rw [munch_run isDigitC ds ('.' :: c2 :: r) hds (by intro c hc; simp at hc; rw [hc]; decide)]
  dsimp only
  rw [if_neg]
  intro hcond
  rw [hc2] at hcond
  exact absurd hcond.2.2 (by simp)

theorem mGlue2_none_after_dot (ds : List Char) (c2 : Char) (r : List Char)
    (hds : ∀ c ∈ ds, isDigitC c = true) (hc2 : c2 ≠ '<') :
    mGlue2 (ds ++ '.' :: c2 :: r) = none := by
  unfold mGlue2
  rw [munch_run isDigitC ds ('.' :: c2 :: r) hds (by intro c hc; simp at hc; rw [hc]; decide)]
  have hdl : dropLit ('.' :: '<' :: '/' :: 'd' :: 'i' :: 'v' :: '>' :: []) ('.' :: c2 :: r) = none := by
    simp [dropLit, hc2]
  rw [hdl]

theorem mGlue3_none_of (prev : Option Char) (l : List Char) (h : mGlue1 l = none) :
    mGlue3 prev l = none := by
  unfold mGlue3
  rw [h]
  simp

theorem mRenum1_at (n : Nat) (D : List Char) (r : List Char)
    (hD : D ≠ []) (hDd : ∀ c ∈ D, isDigitC c = true) :
    mRenum1 n (D ++ '.' :: tabC :: r) = some (natStr n ++ '.' :: tabC :: [], D.length + 1) := by
  unfold mRenum1
  rw [munch_run isDigitC D ('.' :: tabC :: r) hDd (by intro c hc; simp at hc; rw [hc]; decide)]
  dsimp only
  rw [if_pos ⟨by simpa using hD, rfl, rfl⟩]

theorem mDelTab_at (D : List Char) (r : List Char)
    (hD : D ≠ []) (hDd : ∀ c ∈ D, isDigitC c = true) :
    mDelTab (D ++ '.' :: tabC :: r) = some ([], D.length + 1) := by
  unfold mDelTab
  rw [munch_run isDigitC D ('.' :: tabC :: r) hDd (by intro c hc; simp at hc; rw [hc]; decide)]
  dsimp only
  rw [if_pos ⟨by simpa using hD, rfl, rfl⟩]

theorem mRenum3_at (n : Nat) (prev : Option Char) (K : List Char) (c : Char) (r : List Char)
    (hprev : atLineStart prev = true) (hK : K ≠ []) (hKd : ∀ x ∈ K, isDigitC x = true)
    (hc : isSpaceC c = true) :
    mRenum3 n prev (K ++ '.' :: c :: r) =
      some (natStr n ++ '.' :: c :: [], K.length + 1) := by
  unfold mRenum3
  rw [hprev]
  simp only [if_true]
  have hsp : munch isSpaceC (K ++ '.' :: c :: r) = (0, K ++ '.' :: c :: r) := by
    refine munch_eq_zero isSpaceC _ (fun x hx => ?_)
    cases K with
    | nil => exact absurd rfl hK
    | cons k0 ks =>
      rw [List.cons_append, List.take_succ_cons, List.take_zero] at hx
      simp only [List.mem_singleton] at hx
      rw [hx]
      exact (digitC_props k0 (hKd k0 (by simp))).2.2.2.2.1
  rw [hsp]
  dsimp only
  rw [munch_run isDigitC K ('.' :: c :: r) hKd (by intro x hx; simp at hx; rw [hx]; decide)]
  dsimp only
  rw [if_pos ⟨by simpa using hK, rfl, hc⟩, List.take_zero, List.nil_append]
  simp

theorem mRenum4_none_head (n : Nat) (e : Char) (r : List Char) (he : e ≠ '>') :
    mRenum4 n (e :: r) = none := by
  simp [mRenum4, he]

/-! #### divLit occurrence counting -/

theorem countOcc_cons_head_ne (p0 : Char) (ps : List Char) (c : Char) (cs : List Char)
    (h : p0 ≠ c) : countOcc (p0 :: ps) (c :: cs) = countOcc (p0 :: ps) cs := by
  rw [countOcc_cons]
  have hb : (p0 :: ps).isPrefixOf (c :: cs) = false := by
    rw [Bool.eq_false_iff]
    intro hb
    exact h (List.cons_prefix_cons.mp (List.isPrefixOf_iff_prefix.mp hb)).1
  rw [hb]
  simp

theorem countOcc_divLit_digits_rest (K rest : List Char)
    (hK : ∀ c ∈ K, isDigitC c = true) (hrest : countOcc divLit rest = 0) :
    countOcc divLit (K ++ rest) = 0 := by
  rw [countOcc_append divLit K rest (by decide) ?hstr]
  case hstr =>
    rintro j hj1 hj2 ⟨hsfx, _⟩
    obtain ⟨j2, rfl⟩ : ∃ j2, j = j2 + 1 := ⟨j - 1, by omega⟩
    have hmem : '<' ∈ divLit.take (j2 + 1) := by
      show '<' ∈ ('<' :: _).take (j2 + 1)
      rw [List.take_succ_cons]
      simp
    have := hK '<' (hsfx.subset hmem)
    exact absurd this (by decide)
  have hzK : countOcc divLit K = 0 := by
    rw [countOcc_eq_zero_iff _ _ (by decide)]
    intro s hs hps
    have hmem : '<' ∈ s := by
      obtain ⟨t, rfl⟩ := hps
      show '<' ∈ ('<' :: _) ++ t
      simp
    have := hK '<' (hs.subset hmem)
    exact absurd this (by decide)
  rw [hzK, hrest]

/-! #### Head-match stepping through a run -/

theorem scanSub_prefix_match (m : List Char → Option (List Char × Nat)) (D : List Char)
    (hD : D ≠ []) (rest rep : List Char) (j : Nat)
    (hm : m (D ++ rest) = some (rep, D.length + j)) :
    scanSub m (D ++ rest) = rep ++ scanSub m (rest.drop (j + 1)) := by
  cases D with
  | nil => exact absurd rfl hD
  | cons d0 ds =>
    rw [List.cons_append, scanSub_cons]
    rw [List.cons_append] at hm
    rw [hm]
    dsimp only
    congr 2
    rw [List.drop_append_eq_append_drop,
      List.drop_eq_nil_of_le (by simp only [List.length_cons]; omega), List.nil_append]
    congr 1
    simp only [List.length_cons]
    omega

theorem scanSubPFrom_prefix_match (m : Option Char → List Char → Option (List Char × Nat))
    (pv : Option Char) (D : List Char) (hD : D ≠ []) (rest rep : List Char) (j : Nat)
    (hm : m pv (D ++ rest) = some (rep, D.length + j)) :
    ∃ pv2, scanSubPFrom m pv (D ++ rest) = rep ++ scanSubPFrom m pv2 (rest.drop (j + 1)) := by
  cases D with
  | nil => exact absurd rfl hD
  | cons d0 ds =>
    refine ⟨some (((ds ++ rest).take (ds.length + 1 + j)).getLastD d0), ?_⟩
    rw [List.cons_append, scanSubPFrom_cons]
    rw [List.cons_append] at hm
    have hlen : (d0 :: ds).length + j = ds.length + 1 + j := by
      simp [List.length_cons]
    rw [hlen] at hm
    rw [hm]
    dsimp only
    congr 2
    rw [List.drop_append_eq_append_drop,
      List.drop_eq_nil_of_le (by omega), List.nil_append]
    congr 1
    omega

theorem countOcc_divLit_cons (c : Char) (l : List Char) (h : ('<' : Char) ≠ c) :
    countOcc divLit (c :: l) = countOcc divLit l := by
  conv_lhs => rw [show divLit = '<' :: divLit.tail from rfl]
  rw [countOcc_cons_head_ne '<' divLit.tail c l h]
  rfl

theorem replaceTabL_append (a b : List Char) :
    replaceTabL (a ++ b) = replaceTabL a ++ replaceTabL b := by
  induction a with
  | nil => rfl
  | cons c cs ih =>
    rw [List.cons_append]
    show (if c = tabC then nbsp4 else [c]) ++ replaceTabL (cs ++ b) = _
    rw [ih]
    show _ = ((if c = tabC then nbsp4 else [c]) ++ replaceTabL cs) ++ replaceTabL b
    rw [List.append_assoc]

theorem replaceTabL_id (l : List Char) (h : ∀ c ∈ l, c ≠ tabC) : replaceTabL l = l := by
  induction l with
  | nil => rfl
  | cons c cs ih =>
    show (if c = tabC then nbsp4 else [c]) ++ replaceTabL cs = c :: cs
    rw [if_neg (h c (by simp)), ih (fun d hd => h d (by simp [hd]))]
    rfl

/-! #### The numbering stage on renderer marker shapes -/

theorem numbering_glued_seq (D : List Char) (k : Nat) (b : Char) (br : List Char)
    (hD : D ≠ []) (hDd : ∀ c ∈ D, isDigitC c = true)
    (hb : isLetterC b = true)
    (h1 : ∀ c ∈ b :: br, isDigitC c = false)
    (h2 : ∀ c ∈ b :: br, c ≠ tabC)
    (h3 : countOcc divLit (b :: br) = 0) :
    numberingStage (some k) (D ++ '.' :: b :: br) = natStr k ++ '.' :: (nbsp4 ++ b :: br) := by
  have hbr1 : ∀ c ∈ br, isDigitC c = false := fun c hc => h1 c (List.mem_cons_of_mem b hc)
  have hrestDF : ∀ c ∈ '.' :: tabC :: b :: br, isDigitC c = false := by
    intro c hc
    rcases List.mem_cons.mp hc with rfl | hc
    · decide
    rcases List.mem_cons.mp hc with rfl | hc
    · decide
    · exact h1 c hc
  have e1 : scanSub mGlue1 (D ++ '.' :: b :: br) = D ++ '.' :: tabC :: b :: br := by
    rw [scanSub_prefix_match mGlue1 D hD ('.' :: b :: br) (D ++ '.' :: tabC :: b :: []) 1
      (mGlue1_at D b br hD hDd hb)]
    rw [show ('.' :: b :: br).drop 2 = br from rfl]
    rw [scanSub_id_of_digitFree mGlue1 (fun h => mGlue1_fires h) br hbr1]
    simp
  have e2 : scanSub mGlue2 (D ++ '.' :: tabC :: b :: br) = D ++ '.' :: tabC :: b :: br := by
    refine scanSub_eq_self _ _ (fun s hs _ => ?_)
    rcases suffix_append_cases hs with hrest | ⟨ds, hds, hdne, rfl⟩
    · cases hc : mGlue2 s with
      | none => rfl
      | some rk =>
        obtain ⟨rep, kk⟩ := rk
        obtain ⟨c, hcm, hcd⟩ := mGlue2_fires hc
        rw [hrestDF c (hrest.subset hcm)] at hcd
        exact absurd hcd (by simp)
    · exact mGlue2_none_after_dot ds tabC (b :: br) (fun c hc => hDd c (hds.subset hc))
        (by decide)
  have e3 : scanSubP mGlue3 (D ++ '.' :: tabC :: b :: br) = D ++ '.' :: tabC :: b :: br := by
    rw [scanSubP_eq_from]
    refine scanSubPFrom_eq_self _ _ _ (fun prev s hs _ => ?_)
    rcases suffix_append_cases hs with hrest | ⟨ds, hds, hdne, rfl⟩
    · cases hc : mGlue3 prev s with
      | none => rfl
      | some rk =>
        obtain ⟨rep, kk⟩ := rk
        obtain ⟨c, hcm, hcd⟩ := mGlue3_fires hc
        rw [hrestDF c (hrest.subset hcm)] at hcd
        exact absurd hcd (by simp)
    · exact mGlue3_none_of prev _ (mGlue1_none_nonletter ds tabC (b :: br)
        (fun c hc => hDd c (hds.subset hc)) (by decide))
  have e4 : scanSub (mRenum1 k) (D ++ '.' :: tabC :: b :: br) =
      natStr k ++ '.' :: tabC :: b :: br := by
    rw [scanSub_prefix_match (mRenum1 k) D hD ('.' :: tabC :: b :: br)
      (natStr k ++ '.' :: tabC :: []) 1 (mRenum1_at k D (b :: br) hD hDd)]
    rw [show ('.' :: tabC :: b :: br).drop 2 = b :: br from rfl]
    rw [scanSub_id_of_tabFree (mRenum1 k) (fun h => mRenum1_fires_tab h) (b :: br) h2]
    simp
  have e5 : scanSub (mRenum2 k) (natStr k ++ '.' :: tabC :: b :: br) =
      natStr k ++ '.' :: tabC :: b :: br := by
    refine scanSub_id_of_noInfix (mRenum2 k) divLit (by decide)
      (fun h => mRenum2_fires_div h) _ ?_
    refine countOcc_divLit_digits_rest (natStr k) _ (natStr_digits k) ?_
    rw [countOcc_divLit_cons '.' _ (by decide), countOcc_divLit_cons tabC _ (by decide)]
    exact h3
  have e6 : scanSubP (mRenum3 k) (natStr k ++ '.' :: tabC :: b :: br) =
      natStr k ++ '.' :: tabC :: b :: br := by
    rw [scanSubP_eq_from]
    obtain ⟨pv2, he6⟩ := scanSubPFrom_prefix_match (mRenum3 k) none (natStr k)
      (natStr_ne_nil k) ('.' :: tabC :: b :: br) (natStr k ++ '.' :: tabC :: []) 1
      (mRenum3_at k none (natStr k) tabC (b :: br) rfl (natStr_ne_nil k)
        (natStr_digits k) (by decide))
    rw [he6, show ('.' :: tabC :: b :: br).drop 2 = b :: br from rfl]
    rw [scanSubPFrom_id_of_digitFree (mRenum3 k) (fun h => mRenum3_fires h) pv2 (b :: br) h1]
    simp
  have e7 : scanSub (mRenum4 k) (natStr k ++ '.' :: tabC :: b :: br) =
      natStr k ++ '.' :: tabC :: b :: br := by
    refine scanSub_eq_self _ _ (fun s hs _ => ?_)
    rcases suffix_append_cases hs with hrest | ⟨ds, hds, hdne, rfl⟩
    · cases hc : mRenum4 k s with
      | none => rfl
      | some rk =>
        obtain ⟨rep, kk⟩ := rk
        obtain ⟨c, hcm, hcd⟩ := mRenum4_fires hc
        rw [hrestDF c (hrest.subset hcm)] at hcd
        exact absurd hcd (by simp)
    · cases ds with
      | nil => exact absurd rfl hdne
      | cons e es =>
        rw [List.cons_append]
        exact mRenum4_none_head k e _
          (digitC_props e (natStr_digits k e (hds.subset (by simp)))).1
  show replaceTabL (scanSub (mRenum4 k) (scanSubP (mRenum3 k) (scanSub (mRenum2 k)
    (scanSub (mRenum1 k) (scanSubP mGlue3 (scanSub mGlue2
      (scanSub mGlue1 (D ++ '.' :: b :: br)))))))) = _
  rw [e1, e2, e3, e4, e5, e6, e7, replaceTabL_append,
    replaceTabL_id (natStr k) (fun c hc => (digitC_props c (natStr_digits k c hc)).2.1)]
  have hrt : replaceTabL ('.' :: tabC :: b :: br) = '.' :: (nbsp4 ++ (b :: br)) := by
    show (if ('.' : Char) = tabC then nbsp4 else ['.']) ++ replaceTabL (tabC :: b :: br) = _
    rw [if_neg (by decide)]
    show ['.'] ++ ((if tabC = tabC then nbsp4 else [tabC]) ++ replaceTabL (b :: br)) = _
    rw [if_pos rfl, replaceTabL_id _ h2]
    rfl
  rw [hrt]

theorem numbering_glued_del (D : List Char) (b : Char) (br : List Char)
    (hD : D ≠ []) (hDd : ∀ c ∈ D, isDigitC c = true)
    (hb : isLetterC b = true)
    (h1 : ∀ c ∈ b :: br, isDigitC c = false)
    (h2 : ∀ c ∈ b :: br, c ≠ tabC)
    (h3 : countOcc divLit (b :: br) = 0) :
    numberingStage none (D ++ '.' :: b :: br) = b :: br := by
  have hbr1 : ∀ c ∈ br, isDigitC c = false := fun c hc => h1 c (List.mem_cons_of_mem b hc)
  have hrestDF : ∀ c ∈ '.' :: tabC :: b :: br, isDigitC c = false := by
    intro c hc
    rcases List.mem_cons.mp hc with rfl | hc
    · decide
    rcases List.mem_cons.mp hc with rfl | hc
    · decide
    · exact h1 c hc
  have e1 : scanSub mGlue1 (D ++ '.' :: b :: br) = D ++ '.' :: tabC :: b :: br := by
    rw [scanSub_prefix_match mGlue1 D hD ('.' :: b :: br) (D ++ '.' :: tabC :: b :: []) 1
      (mGlue1_at D b br hD hDd hb)]
    rw [show ('.' :: b :: br).drop 2 = br from rfl]
    rw [scanSub_id_of_digitFree mGlue1 (fun h => mGlue1_fires h) br hbr1]
    simp
  have e2 : scanSub mGlue2 (D ++ '.' :: tabC :: b :: br) = D ++ '.' :: tabC :: b :: br := by
    refine scanSub_eq_self _ _ (fun s hs _ => ?_)
    rcases suffix_append_cases hs with hrest | ⟨ds, hds, hdne, rfl⟩
    · cases hc : mGlue2 s with
      | none => rfl
      | some rk =>
        obtain ⟨rep, kk⟩ := rk
        obtain ⟨c, hcm, hcd⟩ := mGlue2_fires hc
        rw [hrestDF c (hrest.subset hcm)] at hcd
        exact absurd hcd (by simp)
    · exact mGlue2_none_after_dot ds tabC (b :: br) (fun c hc => hDd c (hds.subset hc))
        (by decide)
  have e3 : scanSubP mGlue3 (D ++ '.' :: tabC :: b :: br) = D ++ '.' :: tabC :: b :: br := by
    rw [scanSubP_eq_from]
    refine scanSubPFrom_eq_self _ _ _ (fun prev s hs _ => ?_)
    rcases suffix_append_cases hs with hrest | ⟨ds, hds, hdne, rfl⟩
    · cases hc : mGlue3 prev s with
      | none => rfl
      | some rk =>
        obtain ⟨rep, kk⟩ := rk
        obtain ⟨c, hcm, hcd⟩ := mGlue3_fires hc
        rw [hrestDF c (hrest.subset hcm)] at hcd
        exact absurd hcd (by simp)
    · exact mGlue3_none_of prev _ (mGlue1_none_nonletter ds tabC (b :: br)
        (fun c hc => hDd c (hds.subset hc)) (by decide))
  have e4 : scanSub mDelTab (D ++ '.' :: tabC :: b :: br) = b :: br := by
    rw [scanSub_prefix_match mDelTab D hD ('.' :: tabC :: b :: br) [] 1
      (mDelTab_at D (b :: br) hD hDd)]
    rw [show ('.' :: tabC :: b :: br).drop 2 = b :: br from rfl]
    rw [scanSub_id_of_tabFree mDelTab (fun h => mDelTab_fires_tab h) (b :: br) h2]
    rfl
  show replaceTabL (scanSub mDelTab (scanSubP mGlue3 (scanSub mGlue2
    (scanSub mGlue1 (D ++ '.' :: b :: br))))) = _
  rw [e1, e2, e3, e4, replaceTabL_id _ h2]

theorem numbering_space_seq (D : List Char) (k : Nat) (body : List Char)
    (hD : D ≠ []) (hDd : ∀ c ∈ D, isDigitC c = true)
    (h1 : ∀ c ∈ body, isDigitC c = false)
    (h2 : ∀ c ∈ body, c ≠ tabC)
    (h3 : countOcc divLit body = 0) :
    numberingStage (some k) (D ++ '.' :: ' ' :: body) = natStr k ++ '.' :: ' ' :: body := by
  have hrestDF : ∀ c ∈ '.' :: ' ' :: body, isDigitC c = false := by
    intro c hc
    rcases List.mem_cons.mp hc with rfl | hc
    · decide
    rcases List.mem_cons.mp hc with rfl | hc
    · decide
    · exact h1 c hc
  have hXtab : ∀ c ∈ D ++ '.' :: ' ' :: body, c ≠ tabC := by
    intro c hc
    rcases List.mem_append.mp hc with hc | hc
    · exact (digitC_props c (hDd c hc)).2.1
    rcases List.mem_cons.mp hc with rfl | hc
    · decide
    rcases List.mem_cons.mp hc with rfl | hc
    · decide
    · exact h2 c hc
  have e1 : scanSub mGlue1 (D ++ '.' :: ' ' :: body) = D ++ '.' :: ' ' :: body := by
    refine scanSub_eq_self _ _ (fun s hs _ => ?_)
    rcases suffix_append_cases hs with hrest | ⟨ds, hds, hdne, rfl⟩
    · cases hc : mGlue1 s with
      | none => rfl
      | some rk =>
        obtain ⟨rep, kk⟩ := rk
        obtain ⟨c, hcm, hcd⟩ := mGlue1_fires hc
        rw [hrestDF c (hrest.subset hcm)] at hcd
        exact absurd hcd (by simp)
    · exact mGlue1_none_nonletter ds ' ' body (fun c hc => hDd c (hds.subset hc)) (by decide)
  have e2 : scanSub mGlue2 (D ++ '.' :: ' ' :: body) = D ++ '.' :: ' ' :: body := by
    refine scanSub_eq_self _ _ (fun s hs _ => ?_)
    rcases suffix_append_cases hs with hrest | ⟨ds, hds, hdne, rfl⟩
    · cases hc : mGlue2 s with
      | none => rfl
      | some rk =>
        obtain ⟨rep, kk⟩ := rk
        obtain ⟨c, hcm, hcd⟩ := mGlue2_fires hc
        rw [hrestDF c (hrest.subset hcm)] at hcd
        exact absurd hcd (by simp)
    · exact mGlue2_none_after_dot ds ' ' body (fun c hc => hDd c (hds.subset hc)) (by decide)
  have e3 : scanSubP mGlue3 (D ++ '.' :: ' ' :: body) = D ++ '.' :: ' ' :: body := by
    rw [scanSubP_eq_from]
    refine scanSubPFrom_eq_self _ _ _ (fun prev s hs _ => ?_)
    rcases suffix_append_cases hs with hrest | ⟨ds, hds, hdne, rfl⟩
    · cases hc : mGlue3 prev s with
      | none => rfl
      | some rk =>
        obtain ⟨rep, kk⟩ := rk
        obtain ⟨c, hcm, hcd⟩ := mGlue3_fires hc
        rw [hrestDF c (hrest.subset hcm)] at hcd
        exact absurd hcd (by simp)
    · exact mGlue3_none_of prev _ (mGlue1_none_nonletter ds ' ' body
        (fun c hc => hDd c (hds.subset hc)) (by decide))
  have e4 : scanSub (mRenum1 k) (D ++ '.' :: ' ' :: body) = D ++ '.' :: ' ' :: body :=
    scanSub_id_of_tabFree (mRenum1 k) (fun h => mRenum1_fires_tab h) _ hXtab
  have e5 : scanSub (mRenum2 k) (D ++ '.' :: ' ' :: body) = D ++ '.' :: ' ' :: body := by
    refine scanSub_id_of_noInfix (mRenum2 k) divLit (by decide)
      (fun h => mRenum2_fires_div h) _ ?_
    refine countOcc_divLit_digits_rest D _ hDd ?_
    rw [countOcc_divLit_cons '.' _ (by decide), countOcc_divLit_cons ' ' _ (by decide)]
    exact h3
  have e6 : scanSubP (mRenum3 k) (D ++ '.' :: ' ' :: body) =
      natStr k ++ '.' :: ' ' :: body := by
    rw [scanSubP_eq_from]
    obtain ⟨pv2, he6⟩ := scanSubPFrom_prefix_match (mRenum3 k) none D
      hD ('.' :: ' ' :: body) (natStr k ++ '.' :: ' ' :: []) 1
      (mRenum3_at k none D ' ' body rfl hD hDd (by decide))
    rw [he6, show ('.' :: ' ' :: body).drop 2 = body from rfl]
    rw [scanSubPFrom_id_of_digitFree (mRenum3 k) (fun h => mRenum3_fires h) pv2 body h1]
    simp
  have e7 : scanSub (mRenum4 k) (natStr k ++ '.' :: ' ' :: body) =
      natStr k ++ '.' :: ' ' :: body := by
    refine scanSub_eq_self _ _ (fun s hs _ => ?_)
    rcases suffix_append_cases hs with hrest | ⟨ds, hds, hdne, rfl⟩
    · cases hc : mRenum4 k s with
      | none => rfl
      | some rk =>
        obtain ⟨rep, kk⟩ := rk
        obtain ⟨c, hcm, hcd⟩ := mRenum4_fires hc
        rw [hrestDF c (hrest.subset hcm)] at hcd
        exact absurd hcd (by simp)
    · cases ds with
      | nil => exact absurd rfl hdne
      | cons e es =>
        rw [List.cons_append]
        exact mRenum4_none_head k e _
          (digitC_props e (natStr_digits k e (hds.subset (by simp)))).1
  show replaceTabL (scanSub (mRenum4 k) (scanSubP (mRenum3 k) (scanSub (mRenum2 k)
    (scanSub (mRenum1 k) (scanSubP mGlue3 (scanSub mGlue2
      (scanSub mGlue1 (D ++ '.' :: ' ' :: body)))))))) = _
  rw [e1, e2, e3, e4, e5, e6, e7]
  refine replaceTabL_id _ ?_
  intro c hc
  rcases List.mem_append.mp hc with hc | hc
  · exact (digitC_props c (natStr_digits k c hc)).2.1
  rcases List.mem_cons.mp hc with rfl | hc
  · decide
  rcases List.mem_cons.mp hc with rfl | hc
  · decide
  · exact h2 c hc

theorem numbering_space_del (D : List Char) (body : List Char)
    (hD : D ≠ []) (hDd : ∀ c ∈ D, isDigitC c = true)
    (h1 : ∀ c ∈ body, isDigitC c = false)
    (h2 : ∀ c ∈ body, c ≠ tabC) :
    numberingStage none (D ++ '.' :: ' ' :: body) = D ++ '.' :: ' ' :: body := by
  have hrestDF : ∀ c ∈ '.' :: ' ' :: body, isDigitC c = false := by
    intro c hc
    rcases List.mem_cons.mp hc with rfl | hc
    · decide
    rcases List.mem_cons.mp hc with rfl | hc
    · decide
    · exact h1 c hc
  have hXtab : ∀ c ∈ D ++ '.' :: ' ' :: body, c ≠ tabC := by
    intro c hc
    rcases List.mem_append.mp hc with hc | hc
    · exact (digitC_props c (hDd c hc)).2.1
    rcases List.mem_cons.mp hc with rfl | hc
    · decide
    rcases List.mem_cons.mp hc with rfl | hc
    · decide
    · exact h2 c hc
  have e1 : scanSub mGlue1 (D ++ '.' :: ' ' :: body) = D ++ '.' :: ' ' :: body := by
    refine scanSub_eq_self _ _ (fun s hs _ => ?_)
    rcases suffix_append_cases hs with hrest | ⟨ds, hds, hdne, rfl⟩
    · cases hc : mGlue1 s with
      | none => rfl
      | some rk =>
        obtain ⟨rep, kk⟩ := rk
        obtain ⟨c, hcm, hcd⟩ := mGlue1_fires hc
        rw [hrestDF c (hrest.subset hcm)] at hcd
        exact absurd hcd (by simp)
    · exact mGlue1_none_nonletter ds ' ' body (fun c hc => hDd c (hds.subset hc)) (by decide)
  have e2 : scanSub mGlue2 (D ++ '.' :: ' ' :: body) = D ++ '.' :: ' ' :: body := by
    refine scanSub_eq_self _ _ (fun s hs _ => ?_)
    rcases suffix_append_cases hs with hrest | ⟨ds, hds, hdne, rfl⟩
    · cases hc : mGlue2 s with
      | none => rfl
      | some rk =>
        obtain ⟨rep, kk⟩ := rk
        obtain ⟨c, hcm, hcd⟩ := mGlue2_fires hc
        rw [hrestDF c (hrest.subset hcm)] at hcd
        exact absurd hcd (by simp)
    · exact mGlue2_none_after_dot ds ' ' body (fun c hc => hDd c (hds.subset hc)) (by decide)
  have e3 : scanSubP mGlue3 (D ++ '.' :: ' ' :: body) = D ++ '.' :: ' ' :: body := by
    rw [scanSubP_eq_from]
    refine scanSubPFrom_eq_self _ _ _ (fun prev s hs _ => ?_)
    rcases suffix_append_cases hs with hrest | ⟨ds, hds, hdne, rfl⟩
    · cases hc : mGlue3 prev s with
      | none => rfl
      | some rk =>
        obtain ⟨rep, kk⟩ := rk
        obtain ⟨c, hcm, hcd⟩ := mGlue3_fires hc
        rw [hrestDF c (hrest.subset hcm)] at hcd
        exact absurd hcd (by simp)
    · exact mGlue3_none_of prev _ (mGlue1_none_nonletter ds ' ' body
        (fun c hc => hDd c (hds.subset hc)) (by decide))
  have e4 : scanSub mDelTab (D ++ '.' :: ' ' :: body) = D ++ '.' :: ' ' :: body :=
    scanSub_id_of_tabFree mDelTab (fun h => mDelTab_fires_tab h) _ hXtab
  show replaceTabL (scanSub mDelTab (scanSubP mGlue3 (scanSub mGlue2
    (scanSub mGlue1 (D ++ '.' :: ' ' :: body))))) = _
  rw [e1, e2, e3, e4, replaceTabL_id _ hXtab]

/-! #### Stable sorting of entries -/

theorem mem_insSorted (x y : CitEntry) (l : List CitEntry) :
    y ∈ insSorted x l ↔ y = x ∨ y ∈ l := by
  induction l with
  | nil => simp [insSorted]
  | cons z zs ih =>
    rw [insSorted]
    by_cases h : x.sort_key ≤ z.sort_key
    · rw [if_pos h]
      simp
    · rw [if_neg h]
      simp only [List.mem_cons, ih]
      tauto

theorem insSorted_sorted (x : CitEntry) (l : List CitEntry)
    (h : List.Pairwise (fun a b => a.sort_key ≤ b.sort_key) l) :
    List.Pairwise (fun a b => a.sort_key ≤ b.sort_key) (insSorted x l) := by
  induction l with
  | nil => simp [insSorted]
  | cons y ys ih =>
    rw [List.pairwise_cons] at h
    rw [insSorted]
    by_cases hxy : x.sort_key ≤ y.sort_key
    · rw [if_pos hxy, List.pairwise_cons]
      refine ⟨?_, List.pairwise_cons.mpr h⟩
      intro b hb
      rcases List.mem_cons.mp hb with rfl | hb'
      · exact hxy
      · exact hxy.trans (h.1 b hb')
    · rw [if_neg hxy, List.pairwise_cons]
      refine ⟨?_, ih h.2⟩
      intro b hb
      rcases (mem_insSorted x b ys).mp hb with rfl | hb'
      · exact le_of_not_le hxy
      · exact h.1 b hb'

theorem sortEntries_sorted (l : List CitEntry) :
    List.Pairwise (fun a b => a.sort_key ≤ b.sort_key) (sortEntries l) := by
  induction l with
  | nil => exact List.Pairwise.nil
  | cons x xs ih => exact insSorted_sorted x (sortEntries xs) ih

theorem mem_sortEntries (y : CitEntry) (l : List CitEntry) :
    y ∈ sortEntries l ↔ y ∈ l := by
  induction l with
  | nil => simp [sortEntries]
  | cons x xs ih =>
    rw [sortEntries, mem_insSorted, ih]
    simp

theorem filter_insSorted (x : CitEntry) (l : List CitEntry) (p : CitEntry → Bool)
    (hp : ∀ a b : CitEntry, p a = true → p b = true → a.sort_key = b.sort_key) :
    (insSorted x l).filter p = (x :: l).filter p := by
  induction l with
  | nil => rfl
  | cons y ys ih =>
    rw [insSorted]
    by_cases hxy : x.sort_key ≤ y.sort_key
    · rw [if_pos hxy]
    · rw [if_neg hxy]
      cases hpy : p y with
      | false => simp [List.filter_cons, hpy, ih]
      | true =>
        cases hpx : p x with
        | false => simp [List.filter_cons, hpy, hpx, ih]
        | true => exact absurd (by rw [hp x y hpx hpy]) hxy

theorem filter_sortEntries (l : List CitEntry) (p : CitEntry → Bool)
    (hp : ∀ a b : CitEntry, p a = true → p b = true → a.sort_key = b.sort_key) :
    (sortEntries l).filter p = l.filter p := by
  induction l with
  | nil => rfl
  | cons x xs ih =>
    rw [sortEntries, filter_insSorted x (sortEntries xs) p hp, List.filter_cons,
      List.filter_cons, ih]

theorem length_filter_partition (p : CitEntry → Bool) (l : List CitEntry) :
    (l.filter p).length + (l.filter (fun x => !p x)).length = l.length := by
  induction l with
  | nil => rfl
  | cons x xs ih =>
    rw [List.filter_cons, List.filter_cons]
    cases hp : p x <;> simp only [Bool.not_true, Bool.not_false] <;> simp [List.length_cons] <;> omega

theorem sortEntries_length (l : List CitEntry) : (sortEntries l).length = l.length := by
  have hins : ∀ (x : CitEntry) (t : List CitEntry), (insSorted x t).length = t.length + 1 := by
    intro x t
    induction t with
    | nil => rfl
    | cons y ys ih =>
      rw [insSorted]
      by_cases h : x.sort_key ≤ y.sort_key
      · rw [if_pos h]
        simp
      · rw [if_neg h]
        simp [ih]
  induction l with
  | nil => rfl
  | cons x xs ih =>
    rw [sortEntries, hins, ih]
    rfl

/-! #### The output loop of generate -/

theorem renderLoop_length (render : CslData → Except String String) (alpha : Bool) :
    ∀ (n : Nat) (l : List CitEntry), (renderLoop render alpha n l).length = l.length := by
  intro n l
  induction l generalizing n with
  | nil => rfl
  | cons e rest ih =>
    rw [renderLoop]
    cases e.csl_data <;> cases alpha <;> simp [ih]

theorem renderLoop_get_seq (render : CslData → Except String String) :
    ∀ (l : List CitEntry) (n i : Nat) (e : CitEntry), l.get? i = some e →
      (renderLoop render false n l).get? i = some
        (match e.csl_data with
          | none => String.mk (natStr (n + i)) ++ ". " ++ redSpan e.original_id
          | some d => processCsl (render d) d (some (n + i))) := by
  intro l
  induction l with
  | nil => intro n i e h; simp at h
  | cons x rest ih =>
    intro n i e h
    cases i with
    | zero =>
      simp only [List.get?] at h
      have hxe : x = e := by injection h
      subst hxe
      rw [renderLoop]
      cases hd : x.csl_data <;> simp [hd]
    | succ i =>
      simp only [List.get?] at h
      rw [renderLoop]
      cases x.csl_data <;>
        simpa [Nat.add_assoc, Nat.add_comm 1 i] using ih (n + 1) i e h

theorem renderLoop_alpha (render : CslData → Except String String) :
    ∀ (n : Nat) (l : List CitEntry), renderLoop render true n l =
      l.map (fun e =>
        match e.csl_data with
        | none => redSpan e.original_id
        | some d => processCsl (render d) d none) := by
  intro n l
  induction l generalizing n with
  | nil => rfl
  | cons e rest ih =>
    rw [renderLoop]
    cases hd : e.csl_data <;> simp [hd, ih]

theorem buildEntries_key (fetch : SourceTag → String → Option CslData) (lines : List String) :
    ∀ e ∈ buildEntries fetch lines, e.sort_key = entryFamilyKey e := by
  intro e he
  unfold buildEntries at he
  rw [List.mem_map] at he
  obtain ⟨line, _, heq⟩ := he
  cases hf : fetch (classifySource line) line <;> rw [hf] at heq <;> subst heq <;>
    simp [entryFamilyKey]

/-! #### The et-al stage: case-insensitive literal matching -/

theorem dropLitCI_some : ∀ {p l r : List Char}, dropLitCI p l = some r → lcL p <+: lcL l := by
  intro p
  induction p with
  | nil => intro l r _; exact List.nil_prefix
  | cons p0 ps ih =>
    intro l r h
    cases l with
    | nil => exact absurd h (by simp [dropLitCI])
    | cons c cs =>
      rw [dropLitCI] at h
      cases heq : decide (lc c = lc p0) with
      | false =>
        rw [if_neg (by simpa using heq)] at h
        exact absurd h (by simp)
      | true =>
        have heq' : lc c = lc p0 := by simpa using heq
        rw [if_pos heq'] at h
        show lc p0 :: lcL ps <+: lc c :: lcL cs
        rw [heq']
        exact List.cons_prefix_cons.mpr ⟨rfl, ih h⟩

theorem dropLitCI_none {p l : List Char} (h : ¬ lcL p <+: lcL l) : dropLitCI p l = none := by
  cases hd : dropLitCI p l with
  | none => rfl
  | some r => exact absurd (dropLitCI_some hd) h

theorem dropLitCI_exact : ∀ {p w : List Char} (v : List Char), lcL w = lcL p →
    dropLitCI p (w ++ v) = some v := by
  intro p
  induction p with
  | nil =>
    intro w v hl
    have : w = [] := by simpa [lcL] using hl
    subst this
    rfl
  | cons p0 ps ih =>
    intro w v hl
    cases w with
    | nil => exact absurd hl (by simp [lcL])
    | cons c cs =>
      have h1 : lc c = lc p0 := by
        have := congrArg (fun l => l.headD ' ') hl
        simpa [lcL] using this
      have h2 : lcL cs = lcL ps := by
        have := congrArg List.tail hl
        simpa [lcL] using this
      rw [List.cons_append, dropLitCI, if_pos h1]
      exact ih v h2

theorem dropLitCI_mismatch {p0 c : Char} {ps cs : List Char} (h : lc c ≠ lc p0) :
    dropLitCI (p0 :: ps) (c :: cs) = none := by
  rw [dropLitCI, if_neg h]

/-! #### The et-al stage: when the matchers cannot fire -/

theorem mEtAl1_none (prev : Option Char) (l : List Char)
    (h : dropLitCI (etal5 ++ ['.']) l = none) : mEtAl1 prev l = none := by
  unfold mEtAl1
  rw [h]
  split <;> rfl

theorem mEtAl2_none (prev : Option Char) (l : List Char)
    (h : dropLitCI etal5 l = none) : mEtAl2 prev l = none := by
  unfold mEtAl2
  rw [h]
  split <;> rfl

theorem mEtAl2_none_dot (prev : Option Char) (r : List Char) :
    mEtAl2 prev (etal5 ++ ('.' :: r)) = none := by
  unfold mEtAl2
  rw [dropLitCI_exact ('.' :: r) rfl]
  split
  · rfl
  · simp

/-! #### Occurrence-counting consequences of a clean segment -/

theorem countOcc_zero_extend {p q l : List Char} (hp : p ≠ []) (hpq : p <+: q)
    (h : countOcc p l = 0) : countOcc q l = 0 := by
  have hq : q ≠ [] := by
    intro h0
    subst h0
    exact hp (List.prefix_nil.mp hpq)
  rw [countOcc_eq_zero_iff _ _ hq]
  rw [countOcc_eq_zero_iff _ _ hp] at h
  exact fun s hs hqs => h s hs (hpq.trans hqs)

theorem countOcc_italRep_of_no_etal (l : List Char)
    (hno : countOcc etal5 (lcL l) = 0) : countOcc italRep l = 0 := by
  rw [countOcc_eq_zero_iff _ _ (by decide)] at hno ⊢
  intro s hs hps
  refine hno ((lcL s).drop 3) ?_ ?_
  · exact (List.drop_suffix 3 (lcL s)).trans (hs.map lc)
  · have h1 : italRep.map lc <+: s.map lc := hps.map lc
    have h2 : (italRep.map lc).drop 3 <+: (s.map lc).drop 3 := drop_prefix_mono h1 3
    have h3 : etal5 <+: (italRep.map lc).drop 3 :=
      List.isPrefixOf_iff_prefix.mp (by decide)
    exact h3.trans h2

/-- No case-insensitive occurrence of `p` can start inside a segment `s`
    (a suffix of `u`) when `lcL u` has no `lcL p` occurrence and the
    straddle into `rest` is refuted. -/
theorem no_ci_match_in_segment (p u rest : List Char) (hp : p ≠ [])
    (hstr : ∀ k, 0 < k → k < p.length → ¬ (lcL p).drop k <+: lcL rest)
    (hu : countOcc (lcL p) (lcL u) = 0)
    (s : List Char) (hs : s <:+ u) (hne : s ≠ []) :
    dropLitCI p (s ++ rest) = none := by
  have hpl : lcL p ≠ [] := fun h0 => hp (by simpa [lcL] using h0)
  refine dropLitCI_none ?_
  intro hpre
  rw [show lcL (s ++ rest) = lcL s ++ lcL rest from by simp [lcL]] at hpre
  by_cases hlen : p.length ≤ s.length
  · have hcut : lcL p <+: lcL s := by
      refine prefix_cut hpre ?_
      simpa [lcL] using hlen
    exact (countOcc_eq_zero_iff _ _ hpl).mp hu (lcL s) (hs.map lc) hcut
  · have hk2 : s.length < p.length := by omega
    have hk1 : 0 < s.length := List.length_pos.mpr hne
    have hdp : (lcL p).drop s.length <+: lcL rest := by
      have h2 := drop_prefix_mono hpre s.length
      rwa [show (lcL s ++ lcL rest).drop s.length = lcL rest from by
        rw [show s.length = (lcL s).length from by simp [lcL]]
        exact List.drop_left _ _] at h2
    exact hstr s.length hk1 hk2 hdp

theorem no_ci_match_in_tail (p v : List Char)
    (hv : countOcc (lcL p) (lcL v) = 0) (hp : lcL p ≠ [])
    (s : List Char) (hs : s <:+ v) :
    dropLitCI p s = none :=
  dropLitCI_none (fun hpre => (countOcc_eq_zero_iff _ _ hp).mp hv (lcL s) (hs.map lc) hpre)

/-! #### Shape of the insertion fallback -/

theorem rstripL_prefix (l : List Char) : rstripL l <+: l := by
  have hsuf : l.reverse.dropWhile isSpaceC <:+ l.reverse := List.dropWhile_suffix _
  have h2 : (l.reverse.dropWhile isSpaceC).reverse <+: l.reverse.reverse :=
    List.reverse_prefix.mpr hsuf
  rwa [List.reverse_reverse] at h2

theorem insertEtAl_shape (data : CslData) (d : Nat) (html : List Char) :
    ∃ u v, insertEtAl data d html = u ++ (etalIns ++ v) ∧ u <+: html ∧ v <:+ html := by
  have hr : ∃ u v, rstripL html ++ etalIns = u ++ (etalIns ++ v) ∧ u <+: html ∧ v <:+ html :=
    ⟨rstripL html, [], by simp, rstripL_prefix html, List.nil_suffix⟩
  have hs : ∀ n : Nat, ∃ u v, spliceAt html n = u ++ (etalIns ++ v) ∧ u <+: html ∧
      v <:+ html :=
    fun n => ⟨html.take n, html.drop n, by simp [spliceAt], List.take_prefix n html,
      List.drop_suffix n html⟩
  simp only [insertEtAl]
  repeat' split
  all_goals first | exact hr | exact hs _

/-! #### Stepping the scanner through an exact head match -/

theorem scanSubPFrom_head_match (m : Option Char → List Char → Option (List Char × Nat))
    (pv : Option Char) (w v rep : List Char) (k : Nat)
    (hw : w.length = k + 1) (hm : m pv (w ++ v) = some (rep, k)) :
    scanSubPFrom m pv (w ++ v) = rep ++ scanSubPFrom m (some (w.getLastD ' ')) v := by
  cases w with
  | nil => simp at hw
  | cons c cs =>
    rw [List.cons_append, scanSubPFrom_cons]
    rw [List.cons_append] at hm
    rw [hm]
    dsimp only
    have hcs : cs.length = k := by simpa using hw
    rw [← hcs, List.take_left, List.drop_left, List.getLastD_cons]

end CM

/-! ## Claim theorems -/

namespace CM

/-- C10: for the arxiv author-name string "John  Smith" (two consecutive
    spaces, producing an empty token immediately left of the family span),
    the right-to-left particle scan evaluates `parts[family_idx - 1][0]` on
    an empty token and raises IndexError; the record build therefore returns
    no record (the fetch's try/except yields None) and the whole entry is
    reported as a fetch error instead of yielding parsed authors. -/
theorem c10_empty_token_scan_raises :
    arxivAuthors ["John  Smith"] = .error "string index out of range" ∧
    fetchArxivData "2101.00001" ["John  Smith"] = none ∧
    generateCore (fun _ _ => fetchArxivData "2101.00001" ["John  Smith"])
      (fun _ => .ok "unused") false ["2101.00001"] =
      ["1. " ++ redSpan "2101.00001"] := by
  refine ⟨by decide, by decide, by decide⟩

/-- C2 counterexample: the record has 2 authors but only "Smith" occurs in
    the rendered HTML (truncation detected, N = 2 > M = 1), and the HTML
    contains "et al" only inside "Paget alone"; the substring detection
    fires, the word-boundary italicization patterns match nothing, and the
    post-processed output contains zero italicized "et al." occurrences —
    not exactly one. -/
theorem c2_counterexample :
    displayedCount ⟨"p1", [⟨"Smith", "J.", none⟩, ⟨"Jones", "B.", none⟩]⟩
        "Smith, J. Paget alone.".data <
      (CslData.mk "p1" [⟨"Smith", "J.", none⟩, ⟨"Jones", "B.", none⟩]).author.length ∧
    processCsl (.ok "Smith, J. Paget alone.")
        ⟨"p1", [⟨"Smith", "J.", none⟩, ⟨"Jones", "B.", none⟩]⟩ (some 1) =
      "Smith, J. Paget alone." ∧
    countOcc italRep
      (etAlStage ⟨"p1", [⟨"Smith", "J.", none⟩, ⟨"Jones", "B.", none⟩]⟩
        "Smith, J. Paget alone.".data) = 0 := by
  refine ⟨by decide, by decide, by decide⟩

/-- C3 counterexample: the renderer output "1. Smith, J. Title" carries a
    numeral marker that sequential mode recognizes and renumbers (to "7."),
    yet alphabetical mode does not delete it: the marker "1." remains in the
    post-processed output, refuting "no numeral marker remains". -/
theorem c3_counterexample :
    numberingStage (some 7) "1. Smith, J. Title".data = "7. Smith, J. Title".data ∧
    numberingStage none "1. Smith, J. Title".data = "1. Smith, J. Title".data ∧
    containsL ('1' :: '.' :: []) (numberingStage none "1. Smith, J. Title".data) = true := by
  refine ⟨by decide, by decide, by decide⟩

/-- C5 counterexample: the biorxiv author field "Ann Smith;;Bob Jones" has
    an empty segment between the two semicolons, and the Name Parser emits
    the record {family: "", given: ""} for it instead of skipping it. -/
theorem c5_counterexample :
    biorxivAuthors "Ann Smith;;Bob Jones" =
      .ok [⟨"Smith", "Ann", none⟩, ⟨"", "", none⟩, ⟨"Jones", "Bob", none⟩] := by
  decide

/-- C6 counterexample: cleanup(". . .") = ". ." but cleanup(cleanup(". . ."))
    = "." — the punctuation cleanup is not idempotent. -/
theorem c6_counterexample :
    punctCleanup ". . .".data = ". .".data ∧
    punctCleanup (punctCleanup ". . .".data) = ".".data ∧
    punctCleanup (punctCleanup ". . .".data) ≠ punctCleanup ". . .".data := by
  refine ⟨by decide, by decide, by decide⟩

/-- C7 counterexample: the pubmed author-name string "a b" has two
    space-separated tokens and no uppercase-starting token, so the
    left-to-right scan finds nothing and the for-else fallback executes,
    producing {family: "a", given: "b"} — the fallback is reachable. -/
theorem c7_counterexample :
    2 ≤ (splitCh ' ' "a b".data).length ∧
    (splitCh ' ' "a b".data).findIdx? (fun p => !p.isEmpty && isUpperC (p.headD ' ')) = none ∧
    pubmedParseOne "a b" = [⟨"a", "b", none⟩] := by
  refine ⟨by decide, by decide, by decide⟩

/-- C9 counterexample: a failed entry in sequential mode renders as
    "1. <span style='color:red'>Not Found or Fetch Error: badid</span>",
    which is not the claimed "<i>1.</i> Not Found or Fetch Error: badid"
    (the number is not italicized; the message is wrapped in a red span). -/
theorem c9_counterexample :
    generateCore (fun _ _ => none) (fun _ => .ok "unused") false ["badid"] =
      ["1. " ++ redSpan "badid"] ∧
    ("1. " ++ redSpan "badid") ≠ "<i>1.</i> Not Found or Fetch Error: badid" := by
  refine ⟨by decide, by decide⟩

/-- C5 (amended): empty author-name strings are skipped only by the pubmed
    branch's falsy check before splitting; a whitespace-only pubmed name and
    an empty arxiv/biorxiv segment are not skipped and yield the record
    {family: "", given: ""}.  A name of exactly one token yields
    {family: token, given: ""} in all three branches. -/
theorem c5_amended :
    (∀ rest : List String, pubmedAuthors ("" :: rest) = pubmedAuthors rest) ∧
    pubmedParseOne " " = [⟨"", "", none⟩] ∧
    biorxivParseOne [] = .ok [⟨"", "", none⟩] ∧
    (∀ s : String, s ≠ "" → (∀ c ∈ s.data, isSpaceC c = false) →
      pubmedParseOne s = [⟨s, "", none⟩] ∧
      arxivParseOne s = .ok [⟨s, "", none⟩] ∧
      biorxivParseOne s.data = .ok [⟨s, "", none⟩]) := by
  refine ⟨?_, by decide, by decide, ?_⟩
  · intro rest
    simp [pubmedAuthors]
  · intro s hne hws
    have hsp : splitCh ' ' s.data = [s.data] := by
      refine splitCh_single _ _ (fun c hc hceq => ?_)
      have := hws c hc
      rw [hceq] at this
      simp [isSpaceC] at this
    have hstr : stripL s.data = s.data := stripL_eq_self _ hws
    refine ⟨?_, ?_, ?_⟩
    · simp [pubmedParseOne, hsp]
    · simp [arxivParseOne, famBuild, hsp]
      rfl
    · simp [biorxivParseOne, famBuild, hstr, hsp]
      rfl

/-- C5 witness: the single-token name "Xy" yields {family: "Xy", given: ""}
    in all three branches. -/
theorem c5_amended_witness :
    pubmedParseOne "Xy" = [⟨"Xy", "", none⟩] ∧
    arxivParseOne "Xy" = .ok [⟨"Xy", "", none⟩] ∧
    biorxivParseOne "Xy".data = .ok [⟨"Xy", "", none⟩] :=
  c5_amended.2.2.2 "Xy" (by decide) (by decide)

/-- C7 (amended): the fallback executes exactly when no space-split token
    of the pubmed name starts with an uppercase letter; for every name with
    at least one uppercase-starting token the left-to-right scan succeeds
    and the fallback branch (the findIdx? = none case of pubmedParseOne) is
    not executed. -/
theorem c7_amended (name : String)
    (h : ∃ p ∈ splitCh ' ' name.data, (!p.isEmpty && isUpperC (p.headD ' ')) = true) :
    (splitCh ' ' name.data).findIdx? (fun p => !p.isEmpty && isUpperC (p.headD ' ')) ≠ none := by
  rw [Ne, List.findIdx?_eq_none_iff]
  push_neg
  obtain ⟨p, hp, hpred⟩ := h
  exact ⟨p, hp, by rw [hpred]; simp⟩

/-- C7 witness: "von Bartheld CS" contains an uppercase-starting token, so
    the scan succeeds and the fallback is not taken. -/
theorem c7_amended_witness :
    (splitCh ' ' "von Bartheld CS".data).findIdx?
      (fun p => !p.isEmpty && isUpperC (p.headD ' ')) ≠ none :=
  c7_amended "von Bartheld CS" (by decide)

/-- C6 (amended): the first cleanup pass — collapsing every run of two or
    more periods into one — is idempotent on all strings; the full cleanup
    (run collapse followed by period-whitespace-period collapse) is not
    idempotent in general, because collapsing a period-whitespace-period
    group can create a new one (". . ." becomes ". ." and then "."). -/
theorem c6_amended (l : List Char) : collapseDots (collapseDots l) = collapseDots l :=
  collapseDots_fixed _ (collapseDots_noDD l.length l (le_refl _))

/-- C4: when alphabetical ordering is requested, for every input batch the
    failed entries keep their original relative order and appear strictly
    after all successful entries, and the successful entries appear in
    non-decreasing order of lowercase first-author family name, with ties
    kept in original input order (stable sort). -/
theorem c4_alphabetical_order (fetch : SourceTag → String → Option CslData)
    (lines : List String) :
    (orderEntries true (buildEntries fetch lines)).filter (fun e => e.error) =
        (buildEntries fetch lines).filter (fun e => e.error) ∧
    orderEntries true (buildEntries fetch lines) =
      (orderEntries true (buildEntries fetch lines)).filter (fun e => !e.error) ++
        (orderEntries true (buildEntries fetch lines)).filter (fun e => e.error) ∧
    List.Pairwise (fun a b => entryFamilyKey a ≤ entryFamilyKey b)
      ((orderEntries true (buildEntries fetch lines)).filter (fun e => !e.error)) ∧
    ∀ k : String,
      (orderEntries true (buildEntries fetch lines)).filter
          (fun e => !e.error && decide (entryFamilyKey e = k)) =
        (buildEntries fetch lines).filter
          (fun e => !e.error && decide (entryFamilyKey e = k)) := by
  have hdecomp : orderEntries true (buildEntries fetch lines) =
      sortEntries ((buildEntries fetch lines).filter (fun e => !e.error)) ++
        (buildEntries fetch lines).filter (fun e => e.error) := rfl
  have hSsucc : ∀ x ∈ sortEntries ((buildEntries fetch lines).filter (fun e => !e.error)),
      (!x.error) = true :=
    fun x hx => (List.mem_filter.mp ((mem_sortEntries x _).mp hx)).2
  have hSmemL : ∀ x ∈ sortEntries ((buildEntries fetch lines).filter (fun e => !e.error)),
      x ∈ buildEntries fetch lines :=
    fun x hx => (List.mem_filter.mp ((mem_sortEntries x _).mp hx)).1
  have hEerr : ∀ x ∈ (buildEntries fetch lines).filter (fun e => e.error), x.error = true :=
    fun x hx => (List.mem_filter.mp hx).2
  have hfS1 : (sortEntries ((buildEntries fetch lines).filter (fun e => !e.error))).filter
      (fun e => !e.error) = sortEntries ((buildEntries fetch lines).filter (fun e => !e.error)) :=
    List.filter_eq_self.mpr hSsucc
  have hfS0 : (sortEntries ((buildEntries fetch lines).filter (fun e => !e.error))).filter
      (fun e => e.error) = [] := by
    rw [List.filter_eq_nil_iff]
    intro x hx
    have := hSsucc x hx
    simp only [Bool.not_eq_true'] at this
    simp [this]
  have hfE1 : ((buildEntries fetch lines).filter (fun e => e.error)).filter
      (fun e => e.error) = (buildEntries fetch lines).filter (fun e => e.error) :=
    List.filter_eq_self.mpr hEerr
  have hfE0 : ((buildEntries fetch lines).filter (fun e => e.error)).filter
      (fun e => !e.error) = [] := by
    rw [List.filter_eq_nil_iff]
    intro x hx
    have := hEerr x hx
    simp [this]
  refine ⟨?_, ?_, ?_, ?_⟩
  · rw [hdecomp, List.filter_append, hfS0, hfE1, List.nil_append]
  · rw [hdecomp, List.filter_append, List.filter_append, hfS0, hfE1, hfS1, hfE0,
      List.nil_append, List.append_nil]
  · rw [hdecomp, List.filter_append, hfS1, hfE0, List.append_nil]
    refine (sortEntries_sorted _).imp_of_mem ?_
    intro a b ha hb hle
    rw [← buildEntries_key fetch lines a (hSmemL a ha),
      ← buildEntries_key fetch lines b (hSmemL b hb)]
    exact hle
  · intro k
    have hcongrL : ∀ x ∈ buildEntries fetch lines,
        (!x.error && decide (entryFamilyKey x = k)) = (!x.error && decide (x.sort_key = k)) := by
      intro x hx
      rw [buildEntries_key fetch lines x hx]
    have hout : (orderEntries true (buildEntries fetch lines)).filter
        (fun e => !e.error && decide (entryFamilyKey e = k)) =
        (orderEntries true (buildEntries fetch lines)).filter
          (fun e => !e.error && decide (e.sort_key = k)) := by
      refine List.filter_congr ?_
      intro x hx
      rw [hdecomp, List.mem_append] at hx
      rcases hx with hx | hx
      · exact hcongrL x (hSmemL x hx)
      · exact hcongrL x (List.mem_of_mem_filter hx)
    rw [hout, List.filter_congr hcongrL, hdecomp, List.filter_append]
    have hqE : ((buildEntries fetch lines).filter (fun e => e.error)).filter
        (fun e => !e.error && decide (e.sort_key = k)) = [] := by
      rw [List.filter_eq_nil_iff]
      intro x hx
      have := hEerr x hx
      simp [this]
    rw [hqE, List.append_nil]
    rw [filter_sortEntries _ _ (fun a b hqa hqb => by
      simp only [Bool.and_eq_true, decide_eq_true_eq] at hqa hqb
      rw [hqa.2, hqb.2])]
    rw [List.filter_filter]
    refine List.filter_congr ?_
    intro x _
    cases hx : x.error <;> simp [hx]

/-- C8: any exception raised while rendering or post-processing one entry
    is caught by process_csl's try/except and converted to the per-entry
    string "CSL Formatting Error for <id>: <message>", and the batch always
    produces one output per (non-blank) input line — it is never aborted by
    one entry's exception. -/
theorem c8_error_isolation (fetch : SourceTag → String → Option CslData)
    (render : CslData → Except String String) (alpha : Bool) (lines : List String) :
    (generateCore fetch render alpha lines).length =
      ((lines.map (fun l => String.mk (stripL l.data))).filter (fun l => l ≠ "")).length ∧
    ∀ (d : CslData) (num : Option Nat) (msg : String), render d = .error msg →
      processCsl (render d) d num = "CSL Formatting Error for " ++ d.id ++ ": " ++ msg := by
  constructor
  · unfold generateCore
    rw [renderLoop_length]
    have hlen : (orderEntries alpha (buildEntries fetch lines)).length =
        (buildEntries fetch lines).length := by
      cases alpha with
      | false => rfl
      | true =>
        show (sortEntries ((buildEntries fetch lines).filter (fun e => !e.error)) ++
          (buildEntries fetch lines).filter (fun e => e.error)).length = _
        rw [List.length_append, sortEntries_length]
        have hpart := length_filter_partition (fun e => e.error) (buildEntries fetch lines)
        omega
    rw [hlen]
    unfold buildEntries
    rw [List.length_map]
  · intro d num msg h
    rw [h]
    rfl

/-- C8 witness: a renderer exception with message "boom" for record "id9"
    yields exactly the per-entry error string. -/
theorem c8_witness :
    processCsl ((fun _ : CslData => (Except.error "boom" : Except String String)) ⟨"id9", []⟩)
        ⟨"id9", []⟩ (some 1) = "CSL Formatting Error for id9: boom" :=
  (c8_error_isolation (fun _ _ => none) (fun _ => Except.error "boom") false []).2
    ⟨"id9", []⟩ (some 1) "boom" rfl

/-- C9 (amended): a failed entry is rendered as
    "N. <span style='color:red'>Not Found or Fetch Error: <originalId>"
    followed by "</span>" in sequential mode — the number is plain (not
    italicized) and the message is marked in red — where N = position + 1,
    so a failed entry consumes a display number exactly like a success; in
    alphabetical mode it is rendered as the same red span with no number. -/
theorem c9_amended (render : CslData → Except String String) :
    (∀ (l : List CitEntry) (i : Nat) (e : CitEntry), l.get? i = some e → e.csl_data = none →
      (renderLoop render false 1 l).get? i =
        some (String.mk (natStr (1 + i)) ++ ". " ++ redSpan e.original_id)) ∧
    (∀ l : List CitEntry, renderLoop render true 1 l =
      l.map (fun e =>
        match e.csl_data with
        | none => redSpan e.original_id
        | some d => processCsl (render d) d none)) := by
  constructor
  · intro l i e hget hdata
    rw [renderLoop_get_seq render l 1 i e hget, hdata]
  · intro l
    exact renderLoop_alpha render 1 l

/-- C9 witness: the single failed entry "idX" at position 0 in sequential
    mode renders as "1. " followed by the red span. -/
theorem c9_amended_witness :
    (renderLoop (fun _ => Except.ok "x") false 1 [⟨none, "", "idX"⟩]).get? 0 =
      some (String.mk (natStr (1 + 0)) ++ ". " ++ redSpan "idX") :=
  (c9_amended (fun _ => Except.ok "x")).1 [⟨none, "", "idX"⟩] 0 ⟨none, "", "idX"⟩ rfl rfl

/-- C1: the Given-Name Formatter satisfies the spec's worked examples:
    format("Bartheld CS") = "Bartheld, C. S.",
    format("von Bartheld CS") = "von Bartheld, C. S.",
    format("AV") = "A. V.", and
    format("John Paul GP") = "John Paul, G. P."
    (the boundary comma is attached to the immediately preceding emitted
    token, at most once per call). -/
theorem c1_given_name_examples :
    process_given_name "Bartheld CS" = "Bartheld, C. S." ∧
    process_given_name "von Bartheld CS" = "von Bartheld, C. S." ∧
    process_given_name "AV" = "A. V." ∧
    process_given_name "John Paul GP" = "John Paul, G. P." := by
  refine ⟨?_, ?_, ?_, ?_⟩ <;> decide

/-- C2 (amended): behaviour of the et-al stage. Part 1: when the lowercased
    rendered HTML contains no "et al" substring and the record's author
    count exceeds the number of author family names found verbatim in the
    HTML, the stage inserts exactly one italicized "et al." (exactly one
    occurrence of "<i>et al.</i>" in the output). Part 2: when the HTML
    splits as u ++ w ++ v with w a case variant of "et al." standing at a
    word boundary and neither u nor v containing an "et al" substring
    (case-insensitively), the stage italicizes it in place and the output
    again contains exactly one "<i>et al.</i>" — no second one is added.
    The claim as stated fails because detection is raw substring
    containment: an incidental "et al" (e.g. inside "Paget alone")
    suppresses insertion while the word-boundary italicization patterns
    match nothing, leaving zero italicized occurrences. -/
theorem c2_amended (data : CslData) (html u w v : List Char) :
    (countOcc etal5 (lcL html) = 0 →
      displayedCount data html < data.author.length →
      countOcc italRep (etAlStage data html) = 1) ∧
    (lcL w = etal5 ++ ['.'] →
      countOcc etal5 (lcL u) = 0 →
      countOcc etal5 (lcL v) = 0 →
      (∀ c, u.getLast? = some c → isWordC c = false) →
      countOcc italRep (etAlStage data (u ++ (w ++ v))) = 1) := by
  constructor
  · intro hno htr
    have hfalse : containsL etal5 (lcL html) = false :=
      (containsL_eq_false_iff _ _ (by decide)).mpr hno
    have hstage : etAlStage data html =
        insertEtAl data (displayedCount data html) html := by
      simp [etAlStage, hfalse, htr]
    rw [hstage]
    obtain ⟨U, V, heq, hUp, hVs⟩ := insertEtAl_shape data (displayedCount data html) html
    rw [heq]
    rw [countOcc_mid italRep U etalIns V (by decide) (by decide)
      (fun k h1 h2 =>
        (by decide : ∀ k, k < 13 → 0 < k → ¬ italRep.drop k <+: etalIns) k h2 h1)
      (fun k h1 h2 =>
        (by decide : ∀ k, k < 13 → 0 < k → ¬ italRep.take k <:+ etalIns) k h2 h1)]
    have hz : countOcc italRep html = 0 := countOcc_italRep_of_no_etal html hno
    have hU : countOcc italRep U = 0 := by
      rw [List.prefix_iff_eq_take.mp hUp]
      exact countOcc_zero_take _ _ (by decide) hz _
    have hV : countOcc italRep V = 0 := by
      obtain ⟨t, ht⟩ := hVs
      rw [show V = html.drop t.length from by rw [← ht, List.drop_left]]
      exact countOcc_zero_drop _ _ (by decide) hz _
    rw [hU, hV]
    decide
  · intro hw hu hv hub
    have hwlen : w.length = 5 + 1 := by
      have := congrArg List.length hw
      simpa [lcL] using this
    have hcontains : containsL etal5 (lcL (u ++ (w ++ v))) = true := by
      rw [containsL_iff]
      refine ⟨lcL w ++ lcL v, ⟨lcL u, by simp [lcL]⟩, ?_⟩
      rw [hw]
      exact ⟨['.'] ++ lcL v, by simp⟩
    have hstage : etAlStage data (u ++ (w ++ v)) = italicizeEtAl (u ++ (w ++ v)) := by
      simp [etAlStage, hcontains]
    have hprev : ((lastCharP u none).map isWordC).getD false = false := by
      unfold lastCharP
      cases hgl : u.getLast? with
      | none => rfl
      | some c => simpa using hub c hgl
    have hm : mEtAl1 (lastCharP u none) (w ++ v) = some (italRep, 5) := by
      have hci : dropLitCI (etal5 ++ ['.']) (w ++ v) = some v :=
        dropLitCI_exact v (by rw [hw]; decide)
      simp [mEtAl1, hprev, hci]
    have hstr1 : ∀ k, 0 < k → k < (etal5 ++ ['.']).length →
        ¬ (lcL (etal5 ++ ['.'])).drop k <+: lcL (w ++ v) := by
      intro k h1 h2 hpre
      rw [show lcL (w ++ v) = lcL w ++ lcL v from by simp [lcL], hw] at hpre
      have hcut : (lcL (etal5 ++ ['.'])).drop k <+: etal5 ++ ['.'] := by
        refine prefix_cut hpre ?_
        simp [lcL]
      exact (by decide : ∀ k, k < 6 → 0 < k →
        ¬ (lcL (etal5 ++ ['.'])).drop k <+: etal5 ++ ['.']) k h2 h1 hcut
    have hA : ∀ prev s, s <:+ u → s ≠ [] → mEtAl1 prev (s ++ (w ++ v)) = none :=
      fun prev s hs hne => mEtAl1_none prev _
        (no_ci_match_in_segment (etal5 ++ ['.']) u (w ++ v) (by decide) hstr1
          (countOcc_zero_extend (by decide) (by decide) hu) s hs hne)
    have hV1 : ∀ prev s, s <:+ v → s ≠ [] → mEtAl1 prev s = none :=
      fun prev s hs _ => mEtAl1_none prev s
        (no_ci_match_in_tail (etal5 ++ ['.']) v
          (countOcc_zero_extend (by decide) (by decide) hv) (by decide) s hs)
    have hp1 : scanSubP mEtAl1 (u ++ (w ++ v)) = u ++ (italRep ++ v) := by
      rw [scanSubP_eq_from, scanSubPFrom_append mEtAl1 u (w ++ v) none hA,
        scanSubPFrom_head_match mEtAl1 (lastCharP u none) w v italRep 5 hwlen hm,
        scanSubPFrom_eq_self mEtAl1 _ v hV1]
    have hstr2 : ∀ k, 0 < k → k < etal5.length →
        ¬ (lcL etal5).drop k <+: lcL (italRep ++ v) := by
      intro k h1 h2 hpre
      rw [show lcL (italRep ++ v) = italRep ++ lcL v from by
        rw [show lcL (italRep ++ v) = lcL italRep ++ lcL v from by simp [lcL],
          show lcL italRep = italRep from by decide]] at hpre
      have hcut : (lcL etal5).drop k <+: italRep := by
        refine prefix_cut hpre ?_
        have h5 : ((lcL etal5).drop k).length ≤ 5 := by
          have he : etal5.length = 5 := rfl
          simp [lcL]
          omega
        have h13 : italRep.length = 13 := rfl
        omega
      exact (by decide : ∀ k, k < 5 → 0 < k →
        ¬ (lcL etal5).drop k <+: italRep) k h2 h1 hcut
    have hB : ∀ prev s, s <:+ u ++ (italRep ++ v) → s ≠ [] → mEtAl2 prev s = none := by
      intro prev s hs hne
      rcases suffix_append_cases hs with hs2 | ⟨s₁, hs₁, hne₁, rfl⟩
      · rcases suffix_append_cases hs2 with hs3 | ⟨s₂, hs₂, hne₂, rfl⟩
        · exact mEtAl2_none prev s
            (no_ci_match_in_tail etal5 v
              (by rw [show lcL etal5 = etal5 from by decide]; exact hv) (by decide) s hs3)
        · obtain ⟨t, ht⟩ := hs₂
          have hts : s₂ = italRep.drop t.length := by rw [← ht, List.drop_left]
          have htlen : t.length ≤ 12 := by
            have hl : t.length + s₂.length = 13 := by
              have := congrArg List.length ht
              simpa using this
            have hs₂pos : 0 < s₂.length := List.length_pos.mpr hne₂
            omega
          subst hts
          set n := t.length with hn
          interval_cases n <;>
            first
              | exact mEtAl2_none prev _ (dropLitCI_mismatch (by decide))
              | exact mEtAl2_none_dot prev _
      · exact mEtAl2_none prev _
          (no_ci_match_in_segment etal5 u (italRep ++ v) (by decide) hstr2
            (by rw [show lcL etal5 = etal5 from by decide]; exact hu) s₁ hs₁ hne₁)
    rw [hstage]
    show countOcc italRep (scanSubP mEtAl2 (scanSubP mEtAl1 (u ++ (w ++ v)))) = 1
    rw [hp1, scanSubP_eq_from, scanSubPFrom_eq_self mEtAl2 none _ hB,
      countOcc_mid italRep u italRep v (by decide) (by decide)
        (fun k h1 h2 =>
          (by decide : ∀ k, k < 13 → 0 < k → ¬ italRep.drop k <+: italRep) k h2 h1)
        (fun k h1 h2 =>
          (by decide : ∀ k, k < 13 → 0 < k → ¬ italRep.take k <:+ italRep) k h2 h1),
      countOcc_italRep_of_no_etal u hu, countOcc_italRep_of_no_etal v hv]
    decide

/-- C2 witness: for the record with authors Smith and Jones, the rendered
    HTML "Smith, J. Title." (no "et al", one family name displayed of two)
    gains exactly one inserted "<i>et al.</i>"; and the rendered HTML
    "Smith, J., Et al. Title." (a capitalized "Et al." at a word boundary)
    ends up with exactly one "<i>et al.</i>" after italicization. -/
theorem c2_amended_witness :
    countOcc italRep (etAlStage ⟨"w1", [⟨"Smith", "J.", none⟩, ⟨"Jones", "B.", none⟩]⟩
      "Smith, J. Title.".data) = 1 ∧
    countOcc italRep (etAlStage ⟨"w1", [⟨"Smith", "J.", none⟩, ⟨"Jones", "B.", none⟩]⟩
      ("Smith, J., ".data ++ ("Et al.".data ++ " Title.".data))) = 1 := by
  refine ⟨(c2_amended ⟨"w1", [⟨"Smith", "J.", none⟩, ⟨"Jones", "B.", none⟩]⟩
      "Smith, J. Title.".data [] [] []).1 (by decide) (by decide),
    (c2_amended ⟨"w1", [⟨"Smith", "J.", none⟩, ⟨"Jones", "B.", none⟩]⟩ []
      "Smith, J., ".data "Et al.".data " Title.".data).2
      (by decide) (by decide) (by decide) (by decide)⟩

/-- C3 (amended): for a rendered entry that starts with an arbitrary numeral
    marker, sequential mode rewrites the marker to the literal target number
    in both renderer shapes — glued ("12.Body" becomes "k." plus four
    non-breaking spaces plus "Body") and whitespace-separated ("12. Body"
    becomes "k. Body") — but alphabetical mode deletes only the glued
    marker; a whitespace-separated marker survives alphabetical mode
    unchanged, so a numeral marker can remain in a successful entry. -/
theorem c3_amended (m k : Nat) (b : Char) (br body : List Char)
    (hb : isLetterC b = true)
    (hbr1 : ∀ c ∈ b :: br, isDigitC c = false) (hbr2 : ∀ c ∈ b :: br, c ≠ tabC)
    (hbr3 : countOcc divLit (b :: br) = 0)
    (hbo1 : ∀ c ∈ body, isDigitC c = false) (hbo2 : ∀ c ∈ body, c ≠ tabC)
    (hbo3 : countOcc divLit body = 0) :
    numberingStage (some k) (natStr m ++ '.' :: b :: br) =
      natStr k ++ '.' :: (nbsp4 ++ b :: br) ∧
    numberingStage none (natStr m ++ '.' :: b :: br) = b :: br ∧
    numberingStage (some k) (natStr m ++ '.' :: ' ' :: body) =
      natStr k ++ '.' :: ' ' :: body ∧
    numberingStage none (natStr m ++ '.' :: ' ' :: body) =
      natStr m ++ '.' :: ' ' :: body := by
  refine ⟨?_, ?_, ?_, ?_⟩
  · exact numbering_glued_seq (natStr m) k b br (natStr_ne_nil m) (natStr_digits m)
      hb hbr1 hbr2 hbr3
  · exact numbering_glued_del (natStr m) b br (natStr_ne_nil m) (natStr_digits m)
      hb hbr1 hbr2 hbr3
  · exact numbering_space_seq (natStr m) k body (natStr_ne_nil m) (natStr_digits m)
      hbo1 hbo2 hbo3
  · exact numbering_space_del (natStr m) body (natStr_ne_nil m) (natStr_digits m)
      hbo1 hbo2

/-- C3 witness: for the renderer outputs "12.Smith" (glued) and
    "12. Smith" (whitespace-separated) with target number 7, sequential
    mode produces "7." plus the four-space indent plus "Smith" resp.
    "7. Smith", and alphabetical mode produces "Smith" resp. the
    unchanged "12. Smith". -/
theorem c3_amended_witness :
    numberingStage (some 7) "12.Smith".data = "7.".data ++ (nbsp4 ++ "Smith".data) ∧
    numberingStage none "12.Smith".data = "Smith".data ∧
    numberingStage (some 7) "12. Smith".data = "7. Smith".data ∧
    numberingStage none "12. Smith".data = "12. Smith".data := by
  have h := c3_amended 12 7 'S' "mith".data "Smith".data
    (by decide) (by decide) (by decide) (by decide) (by decide) (by decide) (by decide)
  refine ⟨?_, ?_, ?_, ?_⟩
  · exact h.1
  · exact h.2.1
  · exact h.2.2.1
  · exact h.2.2.2

end CM
